import Mathlib

/-!
# Verification of the OpenDNSSEC signer zone-data engine (signer/src/signer/zonedata.c)

A shallow embedding of the zone-data engine: the ordered domain tree, the
denial-of-existence chain, the SOA serial policies, and the transactional
commit / rollback / update cycle, translated from `zonedata.c`.

Modelling conventions:
* A DNS name (`ldns_rdf` dname) is a list of labels given in canonical
  (label-reversed) order, so that the canonical DNS order used by
  `ldns_dname_compare` is plain lexicographic order on the lists, and
  `ldns_dname_is_subdomain sub par` means that `par` is a proper prefix
  of `sub`.  Individual labels are abstracted to `Nat` (the byte-wise,
  case-insensitive label comparison becomes the order on `Nat`).
* The two red-black trees (`zd->domains`, `zd->denial_chain`) are modelled
  as lists sorted in strictly increasing canonical order; `ldns_rbtree_insert`
  failing on a duplicate key becomes a sorted insertion returning `none`.
* C pointers between nodes (`domain->parent`, `domain->denial`,
  `denial->domain`, `domain->nsec3`) are represented by the key (dname) of
  the referenced node; an in-place update through such a pointer becomes an
  update of the entry with that key.
* Functions from `domain.c`, `rrset.c`, `denial.c` and `shared/util.h` are
  not part of the sources; where a claim depends on them they are either
  modelled from the spec (marked `Modelled from the spec:`) or taken as an
  explicit function parameter of the embedding.
* Machine integers (`uint32_t` serials) are `Nat` with explicit `% 2^32`
  where the C arithmetic wraps.
-/

/-! ## Names and canonical order -/

/-- A DNS label, abstracted to a natural number; labels compare by the
byte-lexicographic case-insensitive order, which we abstract to the order
on `Nat`. -/
abbrev Label := Nat

/-- A DNS name as its list of labels in canonical (label-reversed) order:
the root-most label first.  `ldns_dname_compare` is then lexicographic
order on these lists. -/
abbrev Dname := List Label

/-- Canonical DNS name comparison, `ldns_dname_compare`: lexicographic on
the label-reversed representation; a proper prefix (ancestor) sorts first. -/
def dnameCmp : Dname → Dname → Ordering
  | [], [] => .eq
  | [], _ :: _ => .lt
  | _ :: _, [] => .gt
  | a :: as, b :: bs =>
    match compare a b with
    | .eq => dnameCmp as bs
    | o => o

/-- Strict canonical order on names. -/
def dnameLt (a b : Dname) : Bool := dnameCmp a b == .lt

/-- `ldns_dname_is_subdomain sub par`: `sub` is a proper subdomain of
`par`, i.e. `par` is a proper prefix of the label-reversed form; equal
names are not subdomains of each other. -/
def isSubdomainOf (sub par : Dname) : Bool := (par ≠ sub : Bool) && par.isPrefixOf sub

/-- `ldns_dname_left_chop`: drop the least significant label, i.e. the last
label of the label-reversed representation; `none` on the root name. -/
def leftChop (d : Dname) : Option Dname :=
  match d with
  | [] => none
  | _ :: _ => some d.dropLast

theorem dnameCmp_eq_iff_eq : ∀ a b : Dname, dnameCmp a b = .eq ↔ a = b := by
  intro a
  induction a with
  | nil => intro b; cases b <;> simp [dnameCmp]
  | cons x as ih =>
    intro b
    cases b with
    | nil => simp [dnameCmp]
    | cons y bs =>
      simp only [dnameCmp]
      cases h : compare x y with
      | lt =>
        simp only [List.cons.injEq]
        constructor
        · intro hc; exact absurd hc (by simp)
        · rintro ⟨rfl, rfl⟩
          rw [Nat.compare_eq_lt] at h
          exact absurd h (lt_irrefl x)
      | eq =>
        have hxy : x = y := Nat.compare_eq_eq.mp h
        subst hxy
        simp [ih bs]
      | gt =>
        simp only [List.cons.injEq]
        constructor
        · intro hc; exact absurd hc (by simp)
        · rintro ⟨rfl, rfl⟩
          rw [Nat.compare_eq_gt] at h
          exact absurd h (lt_irrefl x)

theorem dnameCmp_self (a : Dname) : dnameCmp a a = .eq :=
  (dnameCmp_eq_iff_eq a a).mpr rfl

theorem dnameLt_irrefl (a : Dname) : dnameLt a a = false := by
  show (dnameCmp a a == .lt) = false
  rw [dnameCmp_self]
  rfl

/-- The comparison swaps under argument exchange. -/
theorem dnameCmp_swap : ∀ a b : Dname, dnameCmp a b = (dnameCmp b a).swap := by
  intro a
  induction a with
  | nil => intro b; cases b <;> simp [dnameCmp, Ordering.swap]
  | cons x as ih =>
    intro b
    cases b with
    | nil => simp [dnameCmp, Ordering.swap]
    | cons y bs =>
      simp only [dnameCmp]
      rcases h : compare x y with hlt | heq | hgt
      · have : compare y x = .gt := by
          rw [Nat.compare_eq_gt]; exact Nat.compare_eq_lt.mp h
        simp [this, Ordering.swap]
      · have hxy : x = y := Nat.compare_eq_eq.mp h
        subst hxy
        simp [Nat.compare_eq_eq.mpr rfl, ih bs]
      · have : compare y x = .lt := by
          rw [Nat.compare_eq_lt]; exact Nat.compare_eq_gt.mp h
        simp [this, Ordering.swap]

theorem dnameLt_asymm {a b : Dname} (h : dnameLt a b = true) : dnameLt b a = false := by
  unfold dnameLt at *
  rw [dnameCmp_swap b a]
  rcases hc : dnameCmp a b with _ | _ | _
  · rfl
  · rw [hc] at h; exact absurd h (by decide)
  · rw [hc] at h; exact absurd h (by decide)

theorem dnameLt_total {a b : Dname} (hab : dnameLt a b = false)
    (hba : dnameLt b a = false) : a = b := by
  unfold dnameLt at *
  rw [dnameCmp_swap b a] at hba
  rcases hc : dnameCmp a b with _ | _ | _
  · rw [hc] at hab; exact absurd hab (by decide)
  · exact (dnameCmp_eq_iff_eq a b).mp hc
  · rw [hc] at hba; exact absurd hba (by decide)

theorem dnameCmp_cons_cons (x y : Label) (as bs : List Label) :
    dnameCmp (x :: as) (y :: bs) =
      match compare x y with
      | .eq => dnameCmp as bs
      | o => o := rfl

theorem dnameLt_trans : ∀ {a b c : Dname}, dnameLt a b = true → dnameLt b c = true →
    dnameLt a c = true := by
  intro a
  induction a with
  | nil =>
    intro b c hab hbc
    cases c with
    | nil =>
      cases b with
      | nil => exact hab
      | cons y bs => exact absurd hbc (by unfold dnameLt dnameCmp; decide)
    | cons z cs => unfold dnameLt dnameCmp; rfl
  | cons x as ih =>
    intro b c hab hbc
    cases b with
    | nil => exact absurd hab (by unfold dnameLt dnameCmp; decide)
    | cons y bs =>
      cases c with
      | nil => exact absurd hbc (by unfold dnameLt dnameCmp; decide)
      | cons z cs =>
        unfold dnameLt at hab hbc ⊢
        rw [dnameCmp_cons_cons] at hab hbc ⊢
        cases hxy : compare x y with
        | lt =>
          rw [hxy] at hab
          cases hyz : compare y z with
          | lt =>
            have hxz : compare x z = .lt := by
              rw [Nat.compare_eq_lt]
              exact lt_trans (Nat.compare_eq_lt.mp hxy) (Nat.compare_eq_lt.mp hyz)
            rw [hxz]
            rfl
          | eq =>
            have hy : y = z := Nat.compare_eq_eq.mp hyz
            subst hy
            rw [hxy]
            rfl
          | gt =>
            rw [hyz] at hbc
            change (Ordering.gt == Ordering.lt) = true at hbc
            exact absurd hbc (by decide)
        | eq =>
          have hx : x = y := Nat.compare_eq_eq.mp hxy
          subst hx
          rw [hxy] at hab
          change (dnameCmp as bs == Ordering.lt) = true at hab
          cases hyz : compare x z with
          | lt => rfl
          | eq =>
            rw [hyz] at hbc
            change (dnameCmp bs cs == Ordering.lt) = true at hbc
            change (dnameCmp as cs == Ordering.lt) = true
            exact ih hab hbc
          | gt =>
            rw [hyz] at hbc
            change (Ordering.gt == Ordering.lt) = true at hbc
            exact absurd hbc (by decide)
        | gt =>
          rw [hxy] at hab
          change (Ordering.gt == Ordering.lt) = true at hab
          exact absurd hab (by decide)

/-- A proper ancestor sorts strictly before its subdomains. -/
theorem dnameLt_of_proper_prefix : ∀ {a b : Dname}, a <+: b → a ≠ b → dnameLt a b = true := by
  intro a
  induction a with
  | nil =>
    intro b _ hne
    cases b with
    | nil => exact absurd rfl hne
    | cons y bs => rfl
  | cons x as ih =>
    intro b hpre hne
    cases b with
    | nil => exact absurd (List.prefix_nil.mp hpre) (by simp)
    | cons y bs =>
      rcases (List.cons_prefix_cons.mp hpre) with ⟨hxy, htail⟩
      subst hxy
      have hne2 : as ≠ bs := fun h => hne (by rw [h])
      have hlt := ih htail hne2
      show (dnameCmp (x :: as) (x :: bs) == Ordering.lt) = true
      rw [dnameCmp_cons_cons, Nat.compare_eq_eq.mpr rfl]
      exact hlt

/-- Subdomain implies strictly greater in canonical order. -/
theorem dnameLt_of_isSubdomainOf {a b : Dname} (h : isSubdomainOf a b = true) :
    dnameLt b a = true := by
  unfold isSubdomainOf at h
  simp only [Bool.and_eq_true, decide_eq_true_eq] at h
  exact dnameLt_of_proper_prefix (List.isPrefixOf_iff_prefix.mp h.2) h.1

/-- Interval property of canonical order: everything strictly between an
ancestor and one of its subdomains is itself a subdomain of the ancestor. -/
theorem prefix_of_between : ∀ {a y x : Dname}, a <+: x → a ≠ x →
    dnameLt a y = true → dnameLt x y = false → a <+: y := by
  intro a
  induction a with
  | nil => intro y x _ _ _ _; exact List.nil_prefix
  | cons p ps ih =>
    intro y x hpre hne hay hxy
    cases x with
    | nil => exact absurd (List.prefix_nil.mp hpre) (by simp)
    | cons px xs =>
      rcases (List.cons_prefix_cons.mp hpre) with ⟨hpx, htail⟩
      subst hpx
      cases y with
      | nil =>
        change (Ordering.gt == Ordering.lt) = true at hay
        exact absurd hay (by decide)
      | cons q ys =>
        unfold dnameLt at hay hxy
        rw [dnameCmp_cons_cons] at hay hxy
        cases hpq : compare p q with
        | lt =>
          rw [hpq] at hxy
          change (Ordering.lt == Ordering.lt) = false at hxy
          exact absurd hxy (by decide)
        | eq =>
          have hq : p = q := Nat.compare_eq_eq.mp hpq
          subst hq
          rw [hpq] at hay hxy
          change (dnameCmp ps ys == Ordering.lt) = true at hay
          change (dnameCmp xs ys == Ordering.lt) = false at hxy
          have hne2 : ps ≠ xs := fun h => hne (by rw [h])
          exact List.cons_prefix_cons.mpr ⟨rfl, ih htail hne2 hay hxy⟩
        | gt =>
          rw [hpq] at hay
          change (Ordering.gt == Ordering.lt) = true at hay
          exact absurd hay (by decide)

/-! ## Status codes and basic record types -/

/-- `ods_status` values used by the zone-data engine (shared/status.h). -/
inductive OdsStatus
  | OK
  | ASSERT_ERR
  | CONFLICT_ERR
  | ERR
  | HSM_ERR
  | CORRUPTED
deriving DecidableEq

/-- `domain_status` classification of a domain node (signer/domain.h). -/
inductive DomainStatus
  | NONE
  | APEX
  | AUTH
  | NS
  | DS
  | ENT_AUTH
  | ENT_NS
  | ENT_GLUE
  | OCCLUDED
  | HASH
deriving DecidableEq

/-- The three empty-non-terminal statuses. -/
def DomainStatus.isEnt : DomainStatus → Bool
  | .ENT_AUTH => true
  | .ENT_NS => true
  | .ENT_GLUE => true
  | _ => false

/-- One RRset of a domain, identified by its RR type, with the committed
content and the two pending (staged) sets of the transactional model.
Modelled from the spec: `rrset.c` is not among the sources; rdata items
are abstracted to `Nat`. -/
structure RRset where
  rrtype : Nat
  ttl : Nat
  committed : List Nat
  pending_add : List Nat
  pending_del : List Nat
deriving DecidableEq

/-- A generated NSEC (or NSEC3) RR: next owner name in the chain, TTL,
class and the type bitmap.  Modelled from the spec (§4.3.5): only the
fields the claims are about are represented. -/
structure NsecRR where
  nxt : Dname
  ttl : Nat
  klass : Nat
  types : List Nat
deriving DecidableEq

/-- A domain node of the zone-data domain tree (signer/domain.h).  The C
pointers `parent`, `denial` and `nsec3` are represented by the key of the
referenced node. -/
structure Domain where
  dname : Dname
  rrsets : List RRset
  dstatus : DomainStatus
  parent : Option Dname
  subdomain_count : Nat
  subdomain_auth : Nat
  denial : Option Dname
  nsec_rrset : Option NsecRR
  nsec3 : Option Dname
  nsec_bitmap_changed : Bool
  nsec_nxt_changed : Bool
  internal_serial : Nat
deriving DecidableEq

/-- A denial-of-existence data point of the denial chain (signer/denial.h). -/
structure Denial where
  owner : Dname
  rrset : Option NsecRR
  domain : Option Dname
  bitmap_changed : Bool
  nxt_changed : Bool
deriving DecidableEq

/-- `denial_create` (denial.c, not among the sources).  Modelled from the
spec (§3, C4): a fresh data point with no NSEC(3) RRset, no domain
back-reference and clear change flags. -/
def denial_create (owner : Dname) : Denial :=
  { owner := owner, rrset := none, domain := none,
    bitmap_changed := false, nxt_changed := false }

/-- The zone data (struct zonedata_struct, zonedata.h): the two ordered
trees, the optional NSEC3 shadow tree and the serial state. -/
structure ZoneData where
  domains : List Domain
  denial_chain : List Denial
  nsec3_domains : Option (List Domain)
  initialized : Bool
  default_ttl : Nat
  inbound_serial : Nat
  internal_serial : Nat
  outbound_serial : Nat
deriving DecidableEq

/-- `zonedata_create`: empty zone data with default TTL 3600. -/
def zonedata_create : ZoneData :=
  { domains := [], denial_chain := [], nsec3_domains := none,
    initialized := false, default_ttl := 3600,
    inbound_serial := 0, internal_serial := 0, outbound_serial := 0 }

/-! ## Serial arithmetic and the serial policy (zonedata_update_serial) -/

/-- Truncation to `uint32_t`. -/
def u32 (n : Nat) : Nat := n % 2 ^ 32

/-- `uint32_t` subtraction `a - b` (wrapping). -/
def sub32 (a b : Nat) : Nat := (a % 2 ^ 32 + (2 ^ 32 - b % 2 ^ 32)) % 2 ^ 32

/-- Modelled from the spec: `DNS_SERIAL_GT` (shared/util.h, not among the
sources) is RFC 1982 serial-arithmetic greater-than on 32-bit serials:
`a` is greater than `b` iff the wrapped difference `a - b` lies strictly
between `0` and `2^31`. -/
def DNS_SERIAL_GT (a b : Nat) : Bool :=
  0 < sub32 a b && sub32 a b < 2 ^ 31

/-- `ods_max` (zonedata.c): maximum of two serials.  The C helper returns
`int`, but the value is immediately stored back into a `uint32_t`, so on
32-bit serials it is the plain maximum. -/
def ods_max (a b : Nat) : Nat := if a > b then a else b

/-- `ods_strcmp(s, p) == 0`: full string equality. -/
def strEq (s p : String) : Bool := s.toList == p.toList

/-- `strncmp(s, p, |p|) == 0`: `p` is a prefix of `s` (a shorter `s`
mismatches at its terminating NUL). -/
def strPrefixEq (s p : String) : Bool := s.toList.take p.toList.length == p.toList

/-- The sign configuration fields consumed by the zone-data engine
(signer/signconf.h, not among the sources); only `soa_serial` drives the
functions modelled here.  A NULL pointer is `none`. -/
structure Signconf where
  soa_serial : Option String
deriving DecidableEq

/-- Common tail of `zonedata_update_serial` (zonedata.c:1373-1384): set
`initialized`, clamp the update to `0x7FFFFFFF` and store
`prev + update` into the 32-bit internal serial. -/
def finishSerial (zd : ZoneData) (prev update : Nat) : Nat × ZoneData :=
  let zd := if !zd.initialized then { zd with initialized := true } else zd
  let update := if update > 0x7FFFFFFF then 0x7FFFFFFF else update
  (0, { zd with internal_serial := u32 (prev + update) })

/-- `zonedata_update_serial` (zonedata.c:1315-1385).  The wall clock
`time_now()` and `time_datestamp()` results are passed in as `now` and
`date` (the `YYYYMMDD` number).  Returns the C `int` error code and the
updated zone data. -/
def zonedata_update_serial (zd : ZoneData) (sc : Signconf) (now date : Nat) :
    Nat × ZoneData :=
  let prev := zd.internal_serial
  match sc.soa_serial with
  | none => (1, zd)
  | some sser =>
    if strEq sser "unixtime" then
      let soa := ods_max zd.inbound_serial (u32 now)
      let soa := if !DNS_SERIAL_GT soa prev then u32 (prev + 1) else soa
      finishSerial zd prev (sub32 soa prev)
    else if strPrefixEq sser "counter" then
      let soa := ods_max zd.inbound_serial prev
      if !zd.initialized then
        (0, { zd with internal_serial := u32 (soa + 1), initialized := true })
      else
        let soa := if !DNS_SERIAL_GT soa prev then u32 (prev + 1) else soa
        finishSerial zd prev (sub32 soa prev)
    else if strPrefixEq sser "datecounter" then
      let soa := ods_max zd.inbound_serial (u32 (u32 date * 100))
      let soa := if !DNS_SERIAL_GT soa prev then u32 (prev + 1) else soa
      finishSerial zd prev (sub32 soa prev)
    else if strPrefixEq sser "keep" then
      let soa := zd.inbound_serial
      if zd.initialized && !DNS_SERIAL_GT soa prev then
        (1, zd)
      else
        finishSerial zd soa 0
    else (1, zd)

theorem ods_max_eq_max (a b : Nat) : ods_max a b = max a b := by
  unfold ods_max
  rcases Nat.lt_or_ge b a with h | h
  · simp [h, Nat.max_eq_left (le_of_lt h)]
  · simp [Nat.not_lt.mpr h, Nat.max_eq_right h]

theorem eta_initialized (zd : ZoneData) (h : zd.initialized = true) :
    zd = { zd with initialized := true } := by
  cases zd
  simp_all

/-- C3: with serial policy `keep` on initialized zone data, the update
fails (error, state untouched) exactly when the inbound serial is not
RFC 1982 greater than the previous internal serial; otherwise the
internal serial becomes the inbound serial. -/
theorem update_serial_keep_spec (zd : ZoneData) (sc : Signconf) (now date : Nat)
    (hpol : sc.soa_serial = some "keep")
    (hinit : zd.initialized = true)
    (hin : zd.inbound_serial < 2 ^ 32) :
    (DNS_SERIAL_GT zd.inbound_serial zd.internal_serial = false →
      zonedata_update_serial zd sc now date = (1, zd)) ∧
    (DNS_SERIAL_GT zd.inbound_serial zd.internal_serial = true →
      zonedata_update_serial zd sc now date =
        (0, { zd with internal_serial := zd.inbound_serial })) := by
  constructor
  · intro hgt
    unfold zonedata_update_serial
    rw [hpol]
    simp only [show strEq "keep" "unixtime" = false from by decide,
      show strPrefixEq "keep" "counter" = false from by decide,
      show strPrefixEq "keep" "datecounter" = false from by decide,
      show strPrefixEq "keep" "keep" = true from by decide,
      hinit, hgt]
    rfl
  · intro hgt
    have hmod : u32 zd.inbound_serial = zd.inbound_serial := by
      unfold u32
      exact Nat.mod_eq_of_lt hin
    simp [zonedata_update_serial, finishSerial, hpol, hinit, hgt, hmod,
      show strEq "keep" "unixtime" = false from by decide,
      show strPrefixEq "keep" "counter" = false from by decide,
      show strPrefixEq "keep" "datecounter" = false from by decide,
      show strPrefixEq "keep" "keep" = true from by decide]

/-- The zone data of the spec scenario S4: initialized, previous internal
serial 100, inbound serial 90. -/
def zdKeepW : ZoneData :=
  { zonedata_create with
      initialized := true
      internal_serial := 100
      inbound_serial := 90 }

/-- Witness for `update_serial_keep_spec`: the spec scenario S4
(`initialized, prev=100, inbound=90, keep`) fails and leaves the serial
state untouched. -/
theorem update_serial_keep_spec_witness :
    DNS_SERIAL_GT 90 100 = false ∧
    zonedata_update_serial zdKeepW { soa_serial := some "keep" } 0 0 =
      (1, zdKeepW) :=
  ⟨by decide,
   (update_serial_keep_spec zdKeepW { soa_serial := some "keep" } 0 0
      rfl rfl (by decide)).1 (by decide)⟩

theorem if_gt_clamp (x c : Nat) : (if x > c then c else x) = min x c := by
  rcases Nat.lt_or_ge c x with h | h
  · simp [h, Nat.min_eq_right (le_of_lt h)]
  · simp [Nat.not_lt.mpr h, Nat.min_eq_left h]

/-- C4: serial policy `unixtime`: the candidate is the maximum of the
inbound serial and the clock; if it is not RFC 1982 greater than the
previous internal serial it becomes `prev + 1`; the 32-bit delta is
clamped to `0x7FFFFFFF`; the new internal serial is
`(prev + delta) mod 2^32` and the call succeeds. -/
theorem update_serial_unixtime_spec (zd : ZoneData) (sc : Signconf) (now date : Nat)
    (hpol : sc.soa_serial = some "unixtime") :
    zonedata_update_serial zd sc now date =
      (let prev := zd.internal_serial
       let candidate0 := max zd.inbound_serial (now % 2 ^ 32)
       let candidate :=
         if DNS_SERIAL_GT candidate0 prev then candidate0 else (prev + 1) % 2 ^ 32
       let delta := min (sub32 candidate prev) 0x7FFFFFFF
       (0, { zd with initialized := true,
                     internal_serial := (prev + delta) % 2 ^ 32 })) := by
  have h1 : strEq "unixtime" "unixtime" = true := by decide
  unfold zonedata_update_serial finishSerial
  rw [hpol]
  simp only [h1, if_true, ods_max_eq_max, if_gt_clamp, u32]
  cases hgt : DNS_SERIAL_GT (max zd.inbound_serial (now % 2 ^ 32)) zd.internal_serial
  · cases hi : zd.initialized
    · simp [hi, hgt]
    · simp [hi, hgt, ← eta_initialized zd hi]
  · cases hi : zd.initialized
    · simp [hi, hgt]
    · simp [hi, hgt, ← eta_initialized zd hi]

/-- Witness for `update_serial_unixtime_spec`: on fresh zone data with
clock 5 the internal serial becomes 5. -/
theorem update_serial_unixtime_spec_witness :
    zonedata_update_serial zonedata_create { soa_serial := some "unixtime" } 5 0 =
      (0, { zonedata_create with initialized := true, internal_serial := 5 }) :=
  (update_serial_unixtime_spec zonedata_create { soa_serial := some "unixtime" } 5 0
    rfl).trans (by decide)

/-! ## The denial chain and zonedata_add_denial -/

/-- NSEC3 parameters (signer/nsec3params.h, not among the sources): the
fields read by `zonedata.c`. -/
structure Nsec3params where
  algorithm : Nat
  flags : Nat
  iterations : Nat
  salt : List Nat
deriving DecidableEq

/-- `zonedata_lookup_denial` (zonedata.c:575-582): find the data point
with the given owner name. -/
def zonedata_lookup_denial (zd : ZoneData) (dname : Dname) : Option Denial :=
  zd.denial_chain.find? (fun x => x.owner == dname)

/-- `ldns_rbtree_insert` on the denial chain: sorted insertion in
canonical order, `none` on a duplicate key. -/
def insertDenial (x : Denial) : List Denial → Option (List Denial)
  | [] => some [x]
  | y :: ys =>
    match dnameCmp x.owner y.owner with
    | .lt => some (x :: y :: ys)
    | .eq => none
    | .gt => (insertDenial x ys).map (y :: ·)

/-- In-place update (through a node pointer) of the chain entry with the
given owner. -/
def updDenial (o : Dname) (f : Denial → Denial) : List Denial → List Denial
  | [] => []
  | y :: ys => if y.owner == o then f y :: ys else y :: updDenial o f ys

/-- `ldns_rbtree_previous` of the freshly inserted node, with the wrap to
`ldns_rbtree_last` (zonedata.c:707-710): the greatest owner strictly
below the new one, or — when the new node is first — the greatest owner
of the whole post-insert chain. -/
def prevDenialOwner (chain : List Denial) (o : Dname) : Option Dname :=
  match (chain.filter (fun x => dnameLt x.owner o)).getLast? with
  | some p => some p.owner
  | none => chain.getLast?.map Denial.owner

/-- The owner of the denial for a domain (zonedata.c:669-681): the NSEC3
hash of the dname prepended to the apex when NSEC3 parameters are given
(`dname_hash`, whose ldns hash core is external and abstracted by the
parameter `H`, `none` modelling a hash failure), else the dname itself. -/
def denialOwner (H : Dname → Dname → Nsec3params → Option Dname)
    (dname apex : Dname) : Option Nsec3params → Option Dname
  | some n3 => H dname apex n3
  | none => some dname

/-- `zonedata_add_denial` (zonedata.c:632-718).  `H` abstracts the external
`ldns_nsec3_hash_name` plus apex concatenation.  The in-place mutation of
the caller-owned `domain` object is returned as the third component. -/
def zonedata_add_denial (H : Dname → Dname → Nsec3params → Option Dname)
    (zd : ZoneData) (domain : Domain) (apex : Dname)
    (nsec3params : Option Nsec3params) : OdsStatus × ZoneData × Domain :=
  match denialOwner H domain.dname apex nsec3params with
  | none => (.ERR, zd, domain)
  | some owner =>
    match zonedata_lookup_denial zd owner with
    | some _ => (.CONFLICT_ERR, zd, domain)
    | none =>
      let denial := denial_create owner
      match insertDenial denial zd.denial_chain with
      | none => (.ERR, zd, domain)
      | some chain =>
        let chain := updDenial owner
          (fun x => { x with bitmap_changed := true, nxt_changed := true }) chain
        let chain :=
          match prevDenialOwner chain owner with
          | some p => updDenial p (fun x => { x with nxt_changed := true }) chain
          | none => chain
        let chain := updDenial owner
          (fun x => { x with domain := some domain.dname }) chain
        (.OK, { zd with denial_chain := chain },
          { domain with denial := some owner })

/-- C1: a second denial at the same computed owner (an NSEC3 collision)
makes `zonedata_add_denial` return `CONFLICT_ERR`, and the zone data —
in particular the denial chain with the previously existing denial at
that owner — is completely unchanged. -/
theorem add_denial_conflict_spec (H : Dname → Dname → Nsec3params → Option Dname)
    (zd : ZoneData) (domain : Domain) (apex : Dname) (n3 : Option Nsec3params)
    (owner : Dname) (prior : Denial)
    (howner : denialOwner H domain.dname apex n3 = some owner)
    (hfound : zonedata_lookup_denial zd owner = some prior) :
    zonedata_add_denial H zd domain apex n3 = (.CONFLICT_ERR, zd, domain) ∧
    zonedata_lookup_denial (zonedata_add_denial H zd domain apex n3).2.1 owner =
      some prior := by
  have h : zonedata_add_denial H zd domain apex n3 = (.CONFLICT_ERR, zd, domain) := by
    unfold zonedata_add_denial
    simp only [howner, hfound]
  refine ⟨h, ?_⟩
  rw [h]
  exact hfound

/-- A concrete domain value used by the witnesses. -/
def domW : Domain :=
  { dname := [1], rrsets := [], dstatus := .AUTH, parent := none,
    subdomain_count := 0, subdomain_auth := 0, denial := none,
    nsec_rrset := none, nsec3 := none, nsec_bitmap_changed := false,
    nsec_nxt_changed := false, internal_serial := 0 }

/-- Zone data already holding a denial at owner `[1]`. -/
def zdC1 : ZoneData :=
  { zonedata_create with denial_chain := [denial_create [1]] }

/-- Witness for `add_denial_conflict_spec`: adding a denial for the domain
`[1]` (no NSEC3) when the chain already holds one at `[1]`. -/
theorem add_denial_conflict_spec_witness :
    denialOwner (fun _ _ _ => none) [1] [] none = some [1] ∧
    zonedata_lookup_denial zdC1 [1] = some (denial_create [1]) ∧
    zonedata_add_denial (fun _ _ _ => none) zdC1 domW [] none =
      (.CONFLICT_ERR, zdC1, domW) :=
  ⟨rfl, by decide,
   (add_denial_conflict_spec (fun _ _ _ => none) zdC1 domW [] none [1]
      (denial_create [1]) rfl (by decide)).1⟩

theorem dnameLt_iff_cmp_gt (a b : Dname) : dnameLt b a = true ↔ dnameCmp a b = .gt := by
  unfold dnameLt
  rw [dnameCmp_swap a b]
  rcases hc : dnameCmp b a with _ | _ | _ <;> decide

theorem beq_false_of_dnameLt {a b : Dname} (h : dnameLt a b = true) : (a == b) = false := by
  rw [beq_eq_false_iff_ne]
  intro hab
  subst hab
  rw [dnameLt_irrefl] at h
  exact absurd h (by decide)

/-- The tree invariant of the denial chain: owners strictly increasing in
canonical order. -/
def SortedDen (l : List Denial) : Prop :=
  l.Pairwise (fun a b => dnameLt a.owner b.owner = true)

/-- Where `ldns_rbtree_insert` puts a key that is not yet present: the
chain splits into the part strictly below and the rest. -/
theorem insertDenial_split (x : Denial) :
    ∀ chain : List Denial, (∀ y ∈ chain, dnameCmp x.owner y.owner ≠ .eq) →
    ∃ l1 l2, chain = l1 ++ l2 ∧ insertDenial x chain = some (l1 ++ x :: l2) ∧
      (∀ y ∈ l1, dnameLt y.owner x.owner = true) ∧
      (∀ hne : l2 ≠ [], dnameLt x.owner (l2.head hne).owner = true) := by
  intro chain
  induction chain with
  | nil =>
    intro _
    exact ⟨[], [], rfl, rfl, by simp, fun h => absurd rfl h⟩
  | cons y ys ih =>
    intro hno
    cases hc : dnameCmp x.owner y.owner with
    | lt =>
      refine ⟨[], y :: ys, rfl, ?_, by simp, fun _ => ?_⟩
      · unfold insertDenial
        rw [hc]
        rfl
      · show dnameLt x.owner y.owner = true
        unfold dnameLt
        rw [hc]
        rfl
    | eq => exact absurd hc (hno y (by simp))
    | gt =>
      obtain ⟨l1, l2, he, hi, h1, h2⟩ := ih (fun z hz => hno z (by simp [hz]))
      refine ⟨y :: l1, l2, by rw [List.cons_append, he], ?_, ?_, h2⟩
      · show insertDenial x (y :: ys) = _
        unfold insertDenial
        rw [hc, hi]
        rfl
      · intro z hz
        rcases List.mem_cons.mp hz with hz | hz
        · subst hz
          exact (dnameLt_iff_cmp_gt x.owner z.owner).mpr hc
        · exact h1 z hz

/-- `updDenial` acts on the entry with the given owner when the entries
before it do not match. -/
theorem updDenial_append (o : Dname) (f : Denial → Denial) :
    ∀ (l1 : List Denial) (x : Denial) (l2 : List Denial),
    (∀ y ∈ l1, (y.owner == o) = false) → (x.owner == o) = true →
    updDenial o f (l1 ++ x :: l2) = l1 ++ f x :: l2 := by
  intro l1
  induction l1 with
  | nil =>
    intro x l2 _ hx
    simp only [List.nil_append, updDenial, hx, if_true]
  | cons y ys ih =>
    intro x l2 hno hx
    have hy : (y.owner == o) = false := hno y (by simp)
    simp only [List.cons_append, updDenial, hy, Bool.false_eq_true, if_false,
      List.cons.injEq, true_and]
    exact ih x l2 (fun z hz => hno z (by simp [hz])) hx

theorem find?_append_none {p : Denial → Bool} :
    ∀ (l1 l2 : List Denial), l1.find? p = none →
      (l1 ++ l2).find? p = l2.find? p := by
  intro l1
  induction l1 with
  | nil => intro l2 _; rfl
  | cons y ys ih =>
    intro l2 h
    rw [List.find?_cons] at h
    cases hy : p y with
    | true => rw [hy] at h; exact absurd h (by simp)
    | false =>
      rw [hy] at h
      show List.find? p (y :: (ys ++ l2)) = _
      rw [List.find?_cons, hy]
      exact ih l2 h

theorem filter_eq_left (p : Denial → Bool) :
    ∀ (l1 l2 : List Denial), (∀ y ∈ l1, p y = true) → (∀ y ∈ l2, p y = false) →
      (l1 ++ l2).filter p = l1 := by
  intro l1 l2 h1 h2
  rw [List.filter_append]
  rw [List.filter_eq_self.mpr h1, List.filter_eq_nil_iff.mpr (by intro a ha; simp [h2 a ha])]
  exact List.append_nil l1

theorem lt_all_of_lt_head {o : Dname} : ∀ {l2 : List Denial}, SortedDen l2 →
    (∀ hne : l2 ≠ [], dnameLt o (l2.head hne).owner = true) →
    ∀ y ∈ l2, dnameLt o y.owner = true := by
  intro l2 hs hh y hy
  cases l2 with
  | nil => cases hy
  | cons q qs =>
    have hq : dnameLt o q.owner = true := hh (by simp)
    rcases List.mem_cons.mp hy with rfl | hy2
    · exact hq
    · exact dnameLt_trans hq ((List.pairwise_cons.mp hs).1 y hy2)

/-- `p` is the canonical-order predecessor of owner `o` in `chain`, with
wrap-around: either the greatest entry strictly below `o`, or — when no
entry is below `o` — the greatest (last) entry of the whole chain. -/
def isCanonPredecessor (chain : List Denial) (o : Dname) (p : Denial) : Prop :=
  p ∈ chain ∧
  ((dnameLt p.owner o = true ∧
      ∀ q ∈ chain, dnameLt q.owner o = true → dnameLt p.owner q.owner = false) ∨
   ((∀ q ∈ chain, dnameLt q.owner o = false) ∧
      ∀ q ∈ chain, dnameLt p.owner q.owner = false))

/-- C2: a successful `zonedata_add_denial` marks the new denial
`bitmap_changed = nxt_changed = 1`, marks its canonical-order predecessor
(wrap-around to the last denial) `nxt_changed = 1`, and links the domain
and the denial both ways. -/
theorem add_denial_ok_spec (H : Dname → Dname → Nsec3params → Option Dname)
    (zd : ZoneData) (domain : Domain) (apex : Dname) (n3 : Option Nsec3params)
    (owner : Dname)
    (howner : denialOwner H domain.dname apex n3 = some owner)
    (hmiss : zonedata_lookup_denial zd owner = none)
    (hsorted : SortedDen zd.denial_chain) :
    ∃ zd2,
      zonedata_add_denial H zd domain apex n3 =
        (.OK, zd2, { domain with denial := some owner }) ∧
      (∃ den, zonedata_lookup_denial zd2 owner = some den ∧
        den.bitmap_changed = true ∧ den.nxt_changed = true ∧
        den.domain = some domain.dname) ∧
      (∃ p, isCanonPredecessor zd2.denial_chain owner p ∧ p.nxt_changed = true) := by
  have hnoeq : ∀ y ∈ zd.denial_chain, ¬((y.owner == owner) = true) :=
    List.find?_eq_none.mp hmiss
  have hno : ∀ y ∈ zd.denial_chain, dnameCmp (denial_create owner).owner y.owner ≠ .eq := by
    intro y hy heq
    have : owner = y.owner := (dnameCmp_eq_iff_eq _ _).mp heq
    exact hnoeq y hy (by rw [← this]; simp)
  obtain ⟨l1, l2, he, hins, h1, h2⟩ :=
    insertDenial_split (denial_create owner) zd.denial_chain hno
  have hsorted2 : SortedDen (l1 ++ l2) := he ▸ hsorted
  obtain ⟨hs1, hs2, hcross⟩ := List.pairwise_append.mp hsorted2
  have h1o : ∀ y ∈ l1, dnameLt y.owner owner = true := h1
  have hlt2 : ∀ y ∈ l2, dnameLt owner y.owner = true := lt_all_of_lt_head hs2 h2
  have hno1 : ∀ y ∈ l1, (y.owner == owner) = false :=
    fun y hy => beq_false_of_dnameLt (h1o y hy)
  -- the freshly inserted and updated data points
  set x1 : Denial :=
    { owner := owner, rrset := none, domain := none,
      bitmap_changed := true, nxt_changed := true } with hx1
  set x2 : Denial :=
    { owner := owner, rrset := none, domain := some domain.dname,
      bitmap_changed := true, nxt_changed := true } with hx2
  have hC1 :
      updDenial owner (fun x => { x with bitmap_changed := true, nxt_changed := true })
        (l1 ++ denial_create owner :: l2) = l1 ++ x1 :: l2 :=
    updDenial_append owner _ l1 (denial_create owner) l2 hno1 (by simp [denial_create])
  have hfals : ∀ y ∈ x1 :: l2, (dnameLt y.owner owner) = false := by
    intro y hy
    rcases List.mem_cons.mp hy with rfl | hy2
    · exact dnameLt_irrefl owner
    · exact dnameLt_asymm (hlt2 y hy2)
  have hFil : (l1 ++ x1 :: l2).filter (fun x => dnameLt x.owner owner) = l1 :=
    filter_eq_left _ l1 (x1 :: l2) h1o hfals
  rcases List.eq_nil_or_concat l1 with hl1 | ⟨l1p, p0, hl1⟩
  · -- the new denial is first in the chain
    subst hl1
    rcases List.eq_nil_or_concat l2 with hl2 | ⟨l2p, q9, hl2⟩
    · -- singleton chain: the predecessor is the new denial itself
      subst hl2
      have hprev : prevDenialOwner ([] ++ x1 :: []) owner = some owner := by
        unfold prevDenialOwner
        rw [hFil]
        rfl
      have hres : zonedata_add_denial H zd domain apex n3 =
          (.OK, { zd with denial_chain := [x2] },
            { domain with denial := some owner }) := by
        unfold zonedata_add_denial
        simp only [howner, hmiss, hins]
        simp only [List.nil_append] at hC1 hprev ⊢
        simp only [hC1, hprev]
        simp only [updDenial, beq_self_eq_true, if_true]
      refine ⟨_, hres, ⟨x2, ?_, rfl, rfl, rfl⟩, ⟨x2, ⟨by simp, ?_⟩, rfl⟩⟩
      · show List.find? (fun x => x.owner == owner) [x2] = some x2
        simp [List.find?_cons]
      · right
        constructor
        · intro q hq
          rcases List.mem_singleton.mp hq with rfl
          exact dnameLt_irrefl owner
        · intro q hq
          rcases List.mem_singleton.mp hq with rfl
          exact dnameLt_irrefl owner
    · -- wrap-around: the predecessor is the last denial of the chain
      rw [List.concat_eq_append] at hl2
      subst hl2
      have hq9lt : dnameLt owner q9.owner = true := hlt2 q9 (by simp)
      have hprev : prevDenialOwner ([] ++ x1 :: (l2p ++ [q9])) owner = some q9.owner := by
        unfold prevDenialOwner
        rw [hFil]
        show (match ([] : List Denial).getLast? with
              | some p => some p.owner
              | none => (x1 :: (l2p ++ [q9])).getLast?.map Denial.owner) = _
        rw [show (x1 :: (l2p ++ [q9])) = (x1 :: l2p) ++ [q9] from by simp,
          List.getLast?_concat]
        rfl
      have hnoq : ∀ y ∈ x1 :: l2p, (y.owner == q9.owner) = false := by
        intro y hy
        rcases List.mem_cons.mp hy with rfl | hy2
        · exact beq_false_of_dnameLt hq9lt
        · exact beq_false_of_dnameLt ((List.pairwise_append.mp hs2).2.2 y hy2 q9 (by simp))
      have hC2 : updDenial q9.owner (fun x => { x with nxt_changed := true })
          (x1 :: (l2p ++ [q9])) =
          x1 :: (l2p ++ [{ q9 with nxt_changed := true }]) := by
        have := updDenial_append q9.owner (fun x => { x with nxt_changed := true })
          (x1 :: l2p) q9 [] hnoq (by simp)
        simpa using this
      have hres : zonedata_add_denial H zd domain apex n3 =
          (.OK, { zd with denial_chain :=
                    x2 :: (l2p ++ [{ q9 with nxt_changed := true }]) },
            { domain with denial := some owner }) := by
        unfold zonedata_add_denial
        simp only [howner, hmiss, hins]
        simp only [List.nil_append] at hC1 hprev ⊢
        simp only [hC1, hprev, hC2]
        simp only [updDenial, beq_self_eq_true, if_true]
      refine ⟨_, hres, ⟨x2, ?_, rfl, rfl, rfl⟩,
        ⟨{ q9 with nxt_changed := true }, ⟨by simp, ?_⟩, rfl⟩⟩
      · show List.find? (fun x => x.owner == owner)
          (x2 :: (l2p ++ [{ q9 with nxt_changed := true }])) = some x2
        simp [List.find?_cons]
      · right
        constructor
        · intro q hq
          rcases List.mem_cons.mp hq with rfl | hq2
          · exact dnameLt_irrefl owner
          · rcases List.mem_append.mp hq2 with hq3 | hq3
            · exact dnameLt_asymm (hlt2 q (by simp [hq3]))
            · rcases List.mem_singleton.mp hq3 with rfl
              exact dnameLt_asymm hq9lt
        · intro q hq
          show dnameLt q9.owner q.owner = false
          rcases List.mem_cons.mp hq with rfl | hq2
          · exact dnameLt_asymm hq9lt
          · rcases List.mem_append.mp hq2 with hq3 | hq3
            · exact dnameLt_asymm ((List.pairwise_append.mp hs2).2.2 q hq3 q9 (by simp))
            · rcases List.mem_singleton.mp hq3 with rfl
              exact dnameLt_irrefl q9.owner
  · -- the predecessor is the greatest denial below the new one
    rw [List.concat_eq_append] at hl1
    subst hl1
    have hp0lt : dnameLt p0.owner owner = true := h1o p0 (by simp)
    have hprev : prevDenialOwner ((l1p ++ [p0]) ++ x1 :: l2) owner = some p0.owner := by
      unfold prevDenialOwner
      rw [hFil, List.getLast?_concat]
    have hcrossp : ∀ y ∈ l1p, dnameLt y.owner p0.owner = true :=
      fun y hy => (List.pairwise_append.mp hs1).2.2 y hy p0 (by simp)
    have hnop : ∀ y ∈ l1p, (y.owner == p0.owner) = false :=
      fun y hy => beq_false_of_dnameLt (hcrossp y hy)
    have hC2 : updDenial p0.owner (fun x => { x with nxt_changed := true })
        ((l1p ++ [p0]) ++ x1 :: l2) =
        l1p ++ { p0 with nxt_changed := true } :: (x1 :: l2) := by
      have := updDenial_append p0.owner (fun x => { x with nxt_changed := true })
        l1p p0 (x1 :: l2) hnop (by simp)
      simpa using this
    have hno1p : ∀ y ∈ l1p ++ [{ p0 with nxt_changed := true }], (y.owner == owner) = false := by
      intro y hy
      rcases List.mem_append.mp hy with hy2 | hy2
      · exact hno1 y (by simp [hy2])
      · rcases List.mem_singleton.mp hy2 with rfl
        exact beq_false_of_dnameLt hp0lt
    have hC3 : updDenial owner (fun x => { x with domain := some domain.dname })
        (l1p ++ { p0 with nxt_changed := true } :: (x1 :: l2)) =
        l1p ++ { p0 with nxt_changed := true } :: (x2 :: l2) := by
      have := updDenial_append owner (fun x => { x with domain := some domain.dname })
        (l1p ++ [{ p0 with nxt_changed := true }]) x1 l2 hno1p (by simp)
      simpa using this
    have hres : zonedata_add_denial H zd domain apex n3 =
        (.OK, { zd with denial_chain :=
                  l1p ++ { p0 with nxt_changed := true } :: (x2 :: l2) },
          { domain with denial := some owner }) := by
      unfold zonedata_add_denial
      simp only [howner, hmiss, hins]
      simp only [hC1, hprev, hC2, hC3]
    have hfind1 : List.find? (fun x => x.owner == owner) l1p = none :=
      List.find?_eq_none.mpr (fun y hy => by simp [hno1 y (by simp [hy])])
    refine ⟨_, hres, ⟨x2, ?_, rfl, rfl, rfl⟩,
      ⟨{ p0 with nxt_changed := true }, ⟨by simp, ?_⟩, rfl⟩⟩
    · show List.find? (fun x => x.owner == owner)
        (l1p ++ { p0 with nxt_changed := true } :: (x2 :: l2)) = some x2
      rw [find?_append_none l1p _ hfind1]
      rw [List.find?_cons, show (({ p0 with nxt_changed := true } : Denial).owner == owner) = false
        from beq_false_of_dnameLt hp0lt]
      simp [List.find?_cons]
    · left
      refine ⟨hp0lt, ?_⟩
      intro q hq _
      show dnameLt p0.owner q.owner = false
      rcases List.mem_append.mp hq with hq2 | hq2
      · exact dnameLt_asymm (hcrossp q hq2)
      · rcases List.mem_cons.mp hq2 with rfl | hq3
        · exact dnameLt_irrefl p0.owner
        · rcases List.mem_cons.mp hq3 with rfl | hq4
          · rename_i hqlt
            rw [show (x2 : Denial).owner = owner from rfl, dnameLt_irrefl] at hqlt
            exact absurd hqlt (by decide)
          · rename_i hqlt
            rw [dnameLt_asymm (hlt2 q hq4)] at hqlt
            exact absurd hqlt (by decide)

/-- Zone data with a single denial at owner `[0]`, for the C2 witness. -/
def zdC2W : ZoneData :=
  { zonedata_create with denial_chain := [denial_create [0]] }

/-- Witness for `add_denial_ok_spec`: adding the denial for domain `[1]`
(no NSEC3) to a chain holding only `[0]`. -/
theorem add_denial_ok_spec_witness :
    ∃ zd2,
      zonedata_add_denial (fun _ _ _ => none) zdC2W domW [] none =
        (.OK, zd2, { domW with denial := some [1] }) ∧
      (∃ den, zonedata_lookup_denial zd2 [1] = some den ∧
        den.bitmap_changed = true ∧ den.nxt_changed = true ∧
        den.domain = some domW.dname) ∧
      (∃ p, isCanonPredecessor zd2.denial_chain [1] p ∧ p.nxt_changed = true) :=
  add_denial_ok_spec (fun _ _ _ => none) zdC2W domW [] none [1] rfl (by decide)
    (by simp [SortedDen, zdC2W])

/-! ## Rollback (zonedata_rollback) -/

/-- Modelled from the spec (§4.2): RRset rollback clears both pending
sets (rrset.c is not among the sources). -/
def rrset_rollback (r : RRset) : RRset :=
  { r with pending_add := [], pending_del := [] }

/-- Modelled from the spec (§4.3.9): domain rollback invokes RRset
rollback on every RRset of the domain (domain.c is not among the
sources). -/
def domain_rollback (d : Domain) : Domain :=
  { d with rrsets := d.rrsets.map rrset_rollback }

/-- `zonedata_rollback` (zonedata.c:911-929): forward-iterate the domain
tree and roll back every domain; no domain is ever removed. -/
def zonedata_rollback (zd : ZoneData) : ZoneData :=
  { zd with domains := zd.domains.map domain_rollback }

/-- C6: rollback is idempotent, removes no domain (the name sequence of the
tree is untouched), discards exactly the pending changes and keeps the
committed RRset contents. -/
theorem rollback_idempotent_spec (zd : ZoneData) :
    zonedata_rollback (zonedata_rollback zd) = zonedata_rollback zd ∧
    (zonedata_rollback zd).domains.map Domain.dname = zd.domains.map Domain.dname ∧
    (∀ p ∈ (zonedata_rollback zd).domains, ∀ r ∈ p.rrsets,
      r.pending_add = [] ∧ r.pending_del = []) ∧
    (zonedata_rollback zd).domains.map (fun d => d.rrsets.map RRset.committed) =
      zd.domains.map (fun d => d.rrsets.map RRset.committed) := by
  refine ⟨?_, ?_, ?_, ?_⟩
  · unfold zonedata_rollback
    simp only [List.map_map]
    congr 1
    apply List.map_congr_left
    intro d _
    show domain_rollback (domain_rollback d) = domain_rollback d
    unfold domain_rollback
    simp only [List.map_map]
    rw [show List.map (rrset_rollback ∘ rrset_rollback) d.rrsets =
        List.map rrset_rollback d.rrsets from List.map_congr_left (fun r _ => rfl)]
  · unfold zonedata_rollback
    simp only [List.map_map]
    apply List.map_congr_left
    intro d _
    rfl
  · intro p hp r hr
    unfold zonedata_rollback at hp
    simp only [List.mem_map] at hp
    obtain ⟨d, _, rfl⟩ := hp
    unfold domain_rollback at hr
    simp only [List.mem_map] at hr
    obtain ⟨r0, _, rfl⟩ := hr
    exact ⟨rfl, rfl⟩
  · unfold zonedata_rollback
    simp only [List.map_map]
    apply List.map_congr_left
    intro d _
    show (d.rrsets.map rrset_rollback).map RRset.committed = d.rrsets.map RRset.committed
    simp only [List.map_map]
    apply List.map_congr_left
    intro r _
    rfl

/-! ## Structural examination (zonedata_examine) -/

/-- `adapter_mode` (adapter/adapter.h, not among the sources): only the
file mode changes the behaviour of `zonedata_examine`. -/
inductive AdapterMode
  | FILE
  | AXFR
deriving DecidableEq

def LDNS_RR_TYPE_CNAME : Nat := 5

def LDNS_RR_TYPE_DNAME : Nat := 39

/-- Number of RRs of type `t` currently present (committed or staged for
addition) at a domain.  Modelled from the spec: the per-domain examine
helpers live in domain.c, which is not among the sources. -/
def rrCountOfType (d : Domain) (t : Nat) : Nat :=
  ((d.rrsets.filter (fun r => r.rrtype == t)).map
    (fun r => r.committed.length + r.pending_add.length)).sum

/-- Modelled from the spec (§4.3.3, first check): violation when the
domain has an RR of type `t` next to data of any other type. -/
def domain_examine_rrset_is_alone (d : Domain) (t : Nat) : Bool :=
  decide (0 < rrCountOfType d t) &&
    d.rrsets.any (fun r =>
      !(r.rrtype == t) && decide (0 < r.committed.length + r.pending_add.length))

/-- Modelled from the spec (§4.3.3): violation when more than one RR of
type `t` is present at the domain. -/
def domain_examine_rrset_is_singleton (d : Domain) (t : Nat) : Bool :=
  decide (1 < rrCountOfType d t)

/-- The structural error of one domain (zonedata.c:1552-1558): CNAME next
to other data, more than one CNAME, or more than one DNAME. -/
def examineDomainError (d : Domain) : Bool :=
  domain_examine_rrset_is_alone d LDNS_RR_TYPE_CNAME ||
  domain_examine_rrset_is_singleton d LDNS_RR_TYPE_CNAME ||
  domain_examine_rrset_is_singleton d LDNS_RR_TYPE_DNAME

/-- The loop of `zonedata_examine` (zonedata.c:1550-1575): `result`
accumulates the structural errors.  In file mode the occluded-data scan
(`zonedata_examine_domain_is_occluded`, whose domain.c helpers are not
among the sources — abstracted by the parameter `occl`) is run for its
warning log, but its verdict is not folded into `result`: that
assignment is commented out in the source. -/
def examineLoop (occl : Domain → Bool) (mode : AdapterMode) :
    List Domain → Bool → Bool
  | [], result => result
  | d :: rest, result =>
    let error := examineDomainError d
    let result := if error then true else result
    let _occluded := if mode = AdapterMode.FILE then occl d else false
    examineLoop occl mode rest result

/-- `zonedata_examine` (zonedata.c:1536-1581). -/
def zonedata_examine (occl : Domain → Bool) (zd : ZoneData) (_apex : Dname)
    (mode : AdapterMode) : OdsStatus :=
  if examineLoop occl mode zd.domains false then .ERR else .OK

theorem examineLoop_true_iff (occl : Domain → Bool) (mode : AdapterMode) :
    ∀ (l : List Domain) (acc : Bool),
      examineLoop occl mode l acc = true ↔
        acc = true ∨ ∃ d ∈ l, examineDomainError d = true := by
  intro l
  induction l with
  | nil =>
    intro acc
    simp [examineLoop]
  | cons d rest ih =>
    intro acc
    show examineLoop occl mode rest (if examineDomainError d then true else acc) = true ↔ _
    rw [ih]
    cases he : examineDomainError d with
    | true => simp [he]
    | false => simp [he]

theorem examineLoop_occl_irrelevant (occl occl' : Domain → Bool)
    (mode mode' : AdapterMode) :
    ∀ (l : List Domain) (acc : Bool),
      examineLoop occl mode l acc = examineLoop occl' mode' l acc := by
  intro l
  induction l with
  | nil => intro acc; rfl
  | cons d rest ih =>
    intro acc
    show examineLoop occl mode rest _ = examineLoop occl' mode' rest _
    exact ih _

/-- C5: `zonedata_examine` returns a non-OK status iff some domain
violates the CNAME-with-other-data rule, the at-most-one-CNAME rule or
the at-most-one-DNAME rule; the occluded-data scan (file mode) can never
change the verdict — the result is the same for every occlusion checker
and every adapter mode. -/
theorem examine_spec (occl occl' : Domain → Bool) (zd : ZoneData)
    (apex apex' : Dname) (mode mode' : AdapterMode) :
    (¬ zonedata_examine occl zd apex mode = .OK ↔
      ∃ d ∈ zd.domains, examineDomainError d = true) ∧
    zonedata_examine occl zd apex mode = zonedata_examine occl' zd apex' mode' := by
  constructor
  · unfold zonedata_examine
    cases hl : examineLoop occl mode zd.domains false with
    | true =>
      simp only [if_true]
      rw [examineLoop_true_iff] at hl
      simp only [Bool.false_eq_true, false_or] at hl
      simpa using hl
    | false =>
      simp only [Bool.false_eq_true, if_false]
      constructor
      · intro h
        simp at h
      · intro h
        have : examineLoop occl mode zd.domains false = true := by
          rw [examineLoop_true_iff]
          exact Or.inr h
        rw [hl] at this
        exact absurd this (by decide)
  · unfold zonedata_examine
    rw [examineLoop_occl_irrelevant occl occl' mode mode']

/-! ## Deleting an RR (zonedata_del_rr) -/

/-- An RR: owner, type, class, TTL and (abstracted) rdata. -/
structure RR where
  owner : Dname
  rrtype : Nat
  klass : Nat
  ttl : Nat
  rdata : Nat
deriving DecidableEq

/-- `zonedata_lookup_domain` (zonedata.c:286-293). -/
def zonedata_lookup_domain (zd : ZoneData) (dname : Dname) : Option Domain :=
  zd.domains.find? (fun d => d.dname == dname)

/-- Modelled from the spec (§4.2 `del`): stage an rdata for deletion when
it is committed, cancelling a matching pending addition (rrset.c is not
among the sources). -/
def rrset_del_rr (r : RRset) (rd : Nat) : RRset :=
  if r.pending_add.contains rd then
    { r with pending_add := r.pending_add.erase rd }
  else if r.committed.contains rd && !r.pending_del.contains rd then
    { r with pending_del := r.pending_del ++ [rd] }
  else r

/-- Modelled from the spec: domain-level RR deletion stages the change on
the RRset of the RR type; the exact behaviour when that RRset is absent
is not derivable from the sources and is modelled as an error (domain.c
is not among the sources). -/
def domain_del_rr (d : Domain) (rr : RR) : Nat × Domain :=
  match d.rrsets.find? (fun r => r.rrtype == rr.rrtype) with
  | none => (1, d)
  | some _ =>
    (0, { d with rrsets := d.rrsets.map (fun r =>
        if r.rrtype == rr.rrtype then rrset_del_rr r rr.rdata else r) })

/-- In-place mutation (through the tree node pointer) of the domain with
the given name. -/
def updDomain (o : Dname) (f : Domain → Domain) : List Domain → List Domain
  | [] => []
  | y :: ys => if y.dname == o then f y :: ys else y :: updDomain o f ys

/-- `zonedata_del_rr` (zonedata.c:1752-1769): stage the deletion on the
owner domain; when no domain with the owner name exists the call only
logs a warning and returns success. -/
def zonedata_del_rr (zd : ZoneData) (rr : RR) : Nat × ZoneData :=
  match zonedata_lookup_domain zd rr.owner with
  | some domain =>
    let ed := domain_del_rr domain rr
    (ed.1, { zd with domains := updDomain rr.owner (fun _ => ed.2) zd.domains })
  | none => (0, zd)

/-- C10: deleting an RR whose owner has no domain in the tree succeeds
with `0` and leaves the zone data completely unchanged. -/
theorem del_rr_missing_owner_spec (zd : ZoneData) (rr : RR)
    (hmiss : zonedata_lookup_domain zd rr.owner = none) :
    zonedata_del_rr zd rr = (0, zd) := by
  unfold zonedata_del_rr
  rw [hmiss]

/-- Witness for `del_rr_missing_owner_spec`: deleting at owner `[7]` from
empty zone data. -/
theorem del_rr_missing_owner_spec_witness :
    zonedata_lookup_domain zonedata_create [7] = none ∧
    zonedata_del_rr zonedata_create { owner := [7], rrtype := 1, klass := 1, ttl := 0, rdata := 0 } =
      (0, zonedata_create) :=
  ⟨rfl, del_rr_missing_owner_spec zonedata_create
    { owner := [7], rrtype := 1, klass := 1, ttl := 0, rdata := 0 } rfl⟩

/-! ## NSEC chain construction (zonedata_nsecify) -/

/-- Modelled from the spec: `domain_count_rrset` (domain.c, not among the
sources) counts the RRsets present at the domain; the NSEC RRset is
stored apart from the `rrsets` tree and is not counted (compare the
separate `nsec_rrset` field used by the backup reader in zonedata.c). -/
def domain_count_rrset (d : Domain) : Nat := d.rrsets.length

/-- The skip condition of `zonedata_nsecify` (zonedata.c:1129-1131,
1148-1150): glue-only (`NONE`, `OCCLUDED`) and empty domains carry no
NSEC. -/
def nsecSkip (d : Domain) : Bool :=
  d.dstatus == DomainStatus.NONE || d.dstatus == DomainStatus.OCCLUDED ||
    domain_count_rrset d == 0

/-- Modelled from the spec (§4.3.5): `domain_nsecify` (domain.c, not among
the sources) creates or refreshes the NSEC RRset at the domain: the next
owner name is the dname of `to`, the TTL is the zone default TTL, and the
type bitmap covers the current RRset types plus RRSIG (46) and NSEC (47). -/
def domain_nsecify (d : Domain) (nxtd : Domain) (ttl klass : Nat) : Domain :=
  { d with nsec_rrset := some ({ nxt := nxtd.dname, ttl := ttl, klass := klass, types := (d.rrsets.map RRset.rrtype) ++ [46, 47] } : NsecRR) }

/-- The inner loop of `zonedata_nsecify` (zonedata.c:1137-1155) advances
the shared iterator over skipped domains: split off the maximal skipped
prefix. -/
def splitSkip : List Domain → List Domain × List Domain
  | [] => ([], [])
  | d :: rest =>
    if nsecSkip d then
      let p := splitSkip rest
      (d :: p.1, p.2)
    else ([], d :: rest)

theorem splitSkip_append : ∀ l : List Domain, (splitSkip l).1 ++ (splitSkip l).2 = l := by
  intro l
  induction l with
  | nil => rfl
  | cons d rest ih =>
    unfold splitSkip
    cases h : nsecSkip d with
    | true => simpa using ih
    | false => rfl

theorem splitSkip_length : ∀ l : List Domain, (splitSkip l).2.length ≤ l.length := by
  intro l
  induction l with
  | nil => exact le_refl 0
  | cons d rest ih =>
    unfold splitSkip
    cases h : nsecSkip d with
    | true =>
      simp only [if_true]
      exact le_trans ih (Nat.le_succ _)
    | false => simp

theorem splitSkip_skipped : ∀ l : List Domain, ∀ y ∈ (splitSkip l).1, nsecSkip y = true := by
  intro l
  induction l with
  | nil => intro y hy; cases hy
  | cons d rest ih =>
    intro y hy
    unfold splitSkip at hy
    cases h : nsecSkip d with
    | true =>
      rw [h] at hy
      simp only [if_true, List.mem_cons] at hy
      rcases hy with rfl | hy2
      · exact h
      · exact ih y hy2
    | false =>
      rw [h] at hy
      simp at hy

theorem splitSkip_find? : ∀ l : List Domain,
    l.find? (fun x => !nsecSkip x) = (splitSkip l).2.head?.map id := by
  intro l
  induction l with
  | nil => rfl
  | cons d rest ih =>
    unfold splitSkip
    rw [List.find?_cons]
    cases h : nsecSkip d with
    | true => simpa [h] using ih
    | false => simp [h]

/-- The loop of `zonedata_nsecify` (zonedata.c:1122-1162).  The outer
iterator resumes at the retained domain that the inner loop found, so the
skipped run in between is emitted unchanged and never re-examined.
`apex?` is the apex tracking variable.  A `false` first component models
the `ODS_STATUS_ERR` return when the apex is undefined at wrap-around
time; when the tracked apex is itself a skipped domain the C inner loop
never terminates, which the model also reports as failure. -/
def nsecifyGo (ttl klass : Nat) : Option Domain → List Domain → Bool × List Domain
  | _, [] => (true, [])
  | apex?, d :: rest =>
    let apex2 := if d.dstatus == DomainStatus.APEX then some d else apex?
    if nsecSkip d then
      let r := nsecifyGo ttl klass apex2 rest
      (r.1, d :: r.2)
    else
      match hrest : (splitSkip rest).2 with
      | t :: rest2 =>
        let r := nsecifyGo ttl klass apex2 (t :: rest2)
        (r.1, domain_nsecify d t ttl klass :: ((splitSkip rest).1 ++ r.2))
      | [] =>
        match apex2 with
        | none => (false, d :: rest)
        | some a =>
          if nsecSkip a then (false, d :: rest)
          else (true, domain_nsecify d a ttl klass :: (splitSkip rest).1)
termination_by _ l => l.length
decreasing_by
  · simp_wf
  · simp_wf
    have h := splitSkip_length rest
    rw [hrest] at h
    simp only [List.length_cons] at h ⊢
    omega

/-- `zonedata_nsecify` (zonedata.c:1110-1164); `stats` only counts and is
not modelled. -/
def zonedata_nsecify (zd : ZoneData) (klass : Nat) : OdsStatus × ZoneData :=
  let r := nsecifyGo zd.default_ttl klass none zd.domains
  (if r.1 then .OK else .ERR, { zd with domains := r.2 })

/-- The NSEC chain as the spec states it: every retained domain receives
an NSEC pointing at the next retained domain in order, the last one
wrapping around to the apex `a`; skipped domains are left untouched. -/
def expectedNsecChain (ttl klass : Nat) (a : Domain) : List Domain → List Domain
  | [] => []
  | d :: rest =>
    (if nsecSkip d then d
     else
       match rest.find? (fun t => !nsecSkip t) with
       | some t => domain_nsecify d t ttl klass
       | none => domain_nsecify d a ttl klass) :: expectedNsecChain ttl klass a rest

theorem expectedNsecChain_skipped (ttl klass : Nat) (a : Domain) :
    ∀ sk : List Domain, (∀ y ∈ sk, nsecSkip y = true) →
      expectedNsecChain ttl klass a sk = sk := by
  intro sk
  induction sk with
  | nil => intro _; rfl
  | cons y ys ih =>
    intro h
    unfold expectedNsecChain
    rw [h y (by simp), ih (fun z hz => h z (by simp [hz]))]
    simp

theorem expectedNsecChain_append_skipped (ttl klass : Nat) (a : Domain) :
    ∀ (sk m : List Domain), (∀ y ∈ sk, nsecSkip y = true) →
      expectedNsecChain ttl klass a (sk ++ m) =
        sk ++ expectedNsecChain ttl klass a m := by
  intro sk
  induction sk with
  | nil => intro m _; rfl
  | cons y ys ih =>
    intro m h
    show expectedNsecChain ttl klass a (y :: (ys ++ m)) = _
    unfold expectedNsecChain
    rw [h y (by simp), ih m (fun z hz => h z (by simp [hz]))]
    simp
    cases m <;> rfl

theorem splitSkip_head : ∀ (l : List Domain) (t : Domain) (r : List Domain),
    (splitSkip l).2 = t :: r → nsecSkip t = false := by
  intro l
  induction l with
  | nil => intro t r h; cases h
  | cons d rest ih =>
    intro t r h
    unfold splitSkip at h
    cases hd : nsecSkip d with
    | true =>
      rw [hd] at h
      simp only [if_true] at h
      exact ih t r h
    | false =>
      rw [hd] at h
      simp only [Bool.false_eq_true, if_false] at h
      injection h with h1 _
      rw [h1] at hd
      exact hd

theorem expectedNsecChain_cons (ttl klass : Nat) (a d : Domain) (rest : List Domain) :
    expectedNsecChain ttl klass a (d :: rest) =
      (if nsecSkip d then d
       else
         match rest.find? (fun t => !nsecSkip t) with
         | some t => domain_nsecify d t ttl klass
         | none => domain_nsecify d a ttl klass) :: expectedNsecChain ttl klass a rest := rfl

theorem nsecifyGo_eq_nil (ttl klass : Nat) (apex? : Option Domain) :
    nsecifyGo ttl klass apex? [] = (true, []) := by
  unfold nsecifyGo
  rfl

theorem nsecifyGo_spec (ttl klass : Nat) (a : Domain) (hra : nsecSkip a = false) :
    ∀ (n : Nat) (l : List Domain), l.length ≤ n → ∀ apex? : Option Domain,
    ((l.filter (fun d => d.dstatus == DomainStatus.APEX) = [a] ∧ apex? = none) ∨
     (l.filter (fun d => d.dstatus == DomainStatus.APEX) = [] ∧ apex? = some a)) →
    nsecifyGo ttl klass apex? l = (true, expectedNsecChain ttl klass a l) := by
  intro n
  induction n with
  | zero =>
    intro l hl apex? hinv
    have hnil : l = [] := List.eq_nil_of_length_eq_zero (Nat.le_zero.mp hl)
    subst hnil
    rcases hinv with ⟨hf, _⟩ | ⟨_, rfl⟩
    · cases hf
    · rw [nsecifyGo_eq_nil]
      rfl
  | succ n ih =>
    intro l hl apex? hinv
    cases l with
    | nil =>
      rcases hinv with ⟨hf, _⟩ | ⟨_, rfl⟩
      · cases hf
      · rw [nsecifyGo_eq_nil]
        rfl
    | cons d rest =>
      have hrest_len : rest.length ≤ n := Nat.le_of_succ_le_succ (by simpa using hl)
      -- every APEX-status member is the apex a (or there is none at all)
      have hmemA : ∀ y ∈ d :: rest, (y.dstatus == DomainStatus.APEX) = true → y = a := by
        intro y hy hp
        rcases hinv with ⟨hf, _⟩ | ⟨hf, _⟩
        · have : y ∈ (d :: rest).filter (fun x => x.dstatus == DomainStatus.APEX) :=
            List.mem_filter.mpr ⟨hy, hp⟩
          rw [hf] at this
          exact List.mem_singleton.mp this
        · have : y ∈ (d :: rest).filter (fun x => x.dstatus == DomainStatus.APEX) :=
            List.mem_filter.mpr ⟨hy, hp⟩
          rw [hf] at this
          cases this
      cases hd : nsecSkip d with
      | true =>
        -- skipped domain: it cannot be the apex
        have hdA : (d.dstatus == DomainStatus.APEX) = false := by
          cases hp : (d.dstatus == DomainStatus.APEX) with
          | false => rfl
          | true =>
            have := hmemA d (by simp) hp
            rw [this] at hd
            rw [hra] at hd
            exact absurd hd (by decide)
        have hinv2 : (rest.filter (fun x => x.dstatus == DomainStatus.APEX) = [a] ∧
            apex? = none) ∨
            (rest.filter (fun x => x.dstatus == DomainStatus.APEX) = [] ∧
            apex? = some a) := by
          rcases hinv with ⟨hf, h2⟩ | ⟨hf, h2⟩
          · left
            refine ⟨?_, h2⟩
            rw [List.filter_cons, hdA] at hf
            simpa using hf
          · right
            refine ⟨?_, h2⟩
            rw [List.filter_cons, hdA] at hf
            simpa using hf
        have hrec := ih rest hrest_len apex? hinv2
        show nsecifyGo ttl klass apex? (d :: rest) = _
        unfold nsecifyGo
        rw [hdA]
        simp only [Bool.false_eq_true, if_false, hd, if_true, hrec]
        rw [expectedNsecChain_cons, hd]
        simp only [if_true]
      | false =>
        have hskA : ∀ y ∈ (splitSkip rest).1, (y.dstatus == DomainStatus.APEX) = false := by
          intro y hy
          cases hp : (y.dstatus == DomainStatus.APEX) with
          | false => rfl
          | true =>
            have hmem : y ∈ rest := by
              have := splitSkip_append rest
              rw [← this]
              exact List.mem_append.mpr (Or.inl hy)
            have hya := hmemA y (by simp [hmem]) hp
            have := splitSkip_skipped rest y hy
            rw [hya, hra] at this
            exact absurd this (by decide)
        have hfilsk : (splitSkip rest).1.filter
            (fun x => x.dstatus == DomainStatus.APEX) = [] := by
          rw [List.filter_eq_nil_iff]
          intro y hy
          simp [hskA y hy]
        show nsecifyGo ttl klass apex? (d :: rest) = _
        unfold nsecifyGo
        rw [hd]
        simp only [Bool.false_eq_true, if_false]
        have hfil_rest :
            rest.filter (fun x => x.dstatus == DomainStatus.APEX) =
              ((splitSkip rest).1 ++ (splitSkip rest).2).filter
                (fun x => x.dstatus == DomainStatus.APEX) := by
          rw [splitSkip_append]
        split
        · rename_i t rest2 heq
          have hm_len : (t :: rest2).length ≤ n := by
            rw [← heq]
            exact le_trans (splitSkip_length rest) hrest_len
          have hinv3 : ((t :: rest2).filter
              (fun x => x.dstatus == DomainStatus.APEX) = [a] ∧
              (if (d.dstatus == DomainStatus.APEX) = true then some d else apex?) = none) ∨
              ((t :: rest2).filter (fun x => x.dstatus == DomainStatus.APEX) = [] ∧
              (if (d.dstatus == DomainStatus.APEX) = true then some d else apex?) = some a) := by
            rcases hinv with ⟨hf, h2⟩ | ⟨hf, h2⟩
            · cases hp : (d.dstatus == DomainStatus.APEX) with
              | true =>
                right
                have hda : d = a := hmemA d (by simp) hp
                refine ⟨?_, by rw [if_pos rfl, hda]⟩
                rw [List.filter_cons, hp] at hf
                simp only [if_true] at hf
                have : rest.filter (fun x => x.dstatus == DomainStatus.APEX) = [] := by
                  have := hf
                  injection this
                rw [hfil_rest, List.filter_append, hfilsk, heq] at this
                simpa using this
              | false =>
                left
                refine ⟨?_, by simp [h2]⟩
                rw [List.filter_cons, hp] at hf
                simp only [Bool.false_eq_true, if_false] at hf
                rw [hfil_rest, List.filter_append, hfilsk, heq] at hf
                simpa using hf
            · have hp : (d.dstatus == DomainStatus.APEX) = false := by
                cases hp : (d.dstatus == DomainStatus.APEX) with
                | false => rfl
                | true =>
                  have : d ∈ (d :: rest).filter (fun x => x.dstatus == DomainStatus.APEX) :=
                    List.mem_filter.mpr ⟨by simp, hp⟩
                  rw [hf] at this
                  cases this
              right
              refine ⟨?_, by rw [hp]; simpa using h2⟩
              rw [List.filter_cons, hp] at hf
              simp only [Bool.false_eq_true, if_false] at hf
              rw [hfil_rest, List.filter_append, hfilsk, heq] at hf
              simpa using hf
          have hrec := ih (t :: rest2) hm_len _ hinv3
          have htail : expectedNsecChain ttl klass a rest =
              (splitSkip rest).1 ++ expectedNsecChain ttl klass a (t :: rest2) := by
            conv_lhs => rw [← splitSkip_append rest]
            rw [heq]
            exact expectedNsecChain_append_skipped ttl klass a _ _
              (splitSkip_skipped rest)
          simp only [hrec]
          rw [expectedNsecChain_cons ttl klass a d rest, hd]
          simp only [Bool.false_eq_true, if_false]
          rw [splitSkip_find? rest, heq, htail]
          rfl
        · rename_i heq
          have hrest_all : rest = (splitSkip rest).1 := by
            conv_lhs => rw [← splitSkip_append rest]
            rw [heq, List.append_nil]
          have hap2 : (if (d.dstatus == DomainStatus.APEX) = true then some d else apex?) =
              some a := by
            rcases hinv with ⟨hf, h2⟩ | ⟨hf, h2⟩
            · cases hp : (d.dstatus == DomainStatus.APEX) with
              | true =>
                rw [if_pos rfl, hmemA d (by simp) hp]
              | false =>
                exfalso
                rw [List.filter_cons, hp] at hf
                simp only [Bool.false_eq_true, if_false] at hf
                have : a ∈ rest.filter (fun x => x.dstatus == DomainStatus.APEX) := by
                  rw [hf]; simp
                have hmem : a ∈ rest := (List.mem_filter.mp this).1
                rw [hrest_all] at hmem
                have := splitSkip_skipped rest a hmem
                rw [hra] at this
                exact absurd this (by decide)
            · have hp : (d.dstatus == DomainStatus.APEX) = false := by
                cases hp : (d.dstatus == DomainStatus.APEX) with
                | false => rfl
                | true =>
                  have : d ∈ (d :: rest).filter (fun x => x.dstatus == DomainStatus.APEX) :=
                    List.mem_filter.mpr ⟨by simp, hp⟩
                  rw [hf] at this
                  cases this
              rw [hp]
              simpa using h2
          rw [hap2]
          simp only [hra, Bool.false_eq_true, if_false]
          rw [expectedNsecChain_cons ttl klass a d rest, hd]
          simp only [Bool.false_eq_true, if_false]
          have htail : expectedNsecChain ttl klass a rest = (splitSkip rest).1 := by
            conv_lhs => rw [hrest_all]
            exact expectedNsecChain_skipped ttl klass a _ (splitSkip_skipped rest)
          rw [splitSkip_find? rest, heq, htail]
          rfl

theorem expectedNsecChain_nxt (ttl klass : Nat) (a : Domain) (hra : nsecSkip a = false) :
    ∀ (l : List Domain), ∀ d2 ∈ expectedNsecChain ttl klass a l, nsecSkip d2 = false →
      ∃ nr, d2.nsec_rrset = some nr ∧
        ∃ t, (t ∈ l ∨ t = a) ∧ nsecSkip t = false ∧ nr.nxt = t.dname := by
  intro l
  induction l with
  | nil => intro d2 h; cases h
  | cons d rest ih =>
    intro d2 hmem hd2
    have lift : d2 ∈ expectedNsecChain ttl klass a rest →
        ∃ nr, d2.nsec_rrset = some nr ∧
          ∃ t, (t ∈ d :: rest ∨ t = a) ∧ nsecSkip t = false ∧ nr.nxt = t.dname := by
      intro htail
      obtain ⟨nr, h1, t, h2, h3, h4⟩ := ih d2 htail hd2
      refine ⟨nr, h1, t, ?_, h3, h4⟩
      rcases h2 with h2 | h2
      · exact Or.inl (by simp [h2])
      · exact Or.inr h2
    rw [expectedNsecChain_cons] at hmem
    cases hd : nsecSkip d with
    | true =>
      rw [hd] at hmem
      simp only [if_true] at hmem
      rcases List.mem_cons.mp hmem with rfl | htail
      · rw [hd2] at hd
        exact absurd hd (by decide)
      · exact lift htail
    | false =>
      rw [hd] at hmem
      simp only [Bool.false_eq_true, if_false] at hmem
      cases hf : rest.find? (fun t => !nsecSkip t) with
      | some t =>
        rw [hf] at hmem
        rcases List.mem_cons.mp hmem with rfl | htail
        · refine ⟨_, rfl, t, Or.inl (by simp [List.mem_of_find?_eq_some hf]), ?_, rfl⟩
          have := List.find?_some hf
          simpa using this
        · exact lift htail
      | none =>
        rw [hf] at hmem
        rcases List.mem_cons.mp hmem with rfl | htail
        · exact ⟨_, rfl, a, Or.inr rfl, hra, rfl⟩
        · exact lift htail

/-- C9: with a unique, retained apex domain, `zonedata_nsecify` succeeds
and produces exactly the NSEC chain of the spec: every retained domain
(status not NONE, not OCCLUDED, at least one RRset) receives an NSEC
whose next owner name is the dname of the next retained domain in order,
the last one wrapping around to the apex; skipped domains are left
untouched by `expectedNsecChain` and every next owner name produced
belongs to a retained domain (or the apex), never to a skipped one. -/
theorem nsecify_spec (zd : ZoneData) (klass : Nat) (a : Domain)
    (hapex : zd.domains.filter (fun d => d.dstatus == DomainStatus.APEX) = [a])
    (hra : nsecSkip a = false) :
    zonedata_nsecify zd klass =
      (.OK, { zd with domains := expectedNsecChain zd.default_ttl klass a zd.domains }) ∧
    ∀ d2 ∈ expectedNsecChain zd.default_ttl klass a zd.domains,
      nsecSkip d2 = false →
      ∃ nr, d2.nsec_rrset = some nr ∧
        ∃ t, (t ∈ zd.domains ∨ t = a) ∧ nsecSkip t = false ∧ nr.nxt = t.dname := by
  constructor
  · unfold zonedata_nsecify
    rw [nsecifyGo_spec zd.default_ttl klass a hra zd.domains.length zd.domains
      (le_refl _) none (Or.inl ⟨hapex, rfl⟩)]
    rfl
  · exact expectedNsecChain_nxt zd.default_ttl klass a hra zd.domains

/-- The apex domain for the C9 witness: owner `[1]`, one (SOA) RRset. -/
def domApexW : Domain :=
  { dname := [1],
    rrsets := [{ rrtype := 6, ttl := 3600, committed := [0], pending_add := [], pending_del := [] }],
    dstatus := .APEX, parent := none, subdomain_count := 1, subdomain_auth := 1,
    denial := none, nsec_rrset := none, nsec3 := none,
    nsec_bitmap_changed := false, nsec_nxt_changed := false, internal_serial := 0 }

/-- A child domain for the C9 witness: owner `[1, 2]`, one (A) RRset. -/
def domChildW : Domain :=
  { dname := [1, 2],
    rrsets := [{ rrtype := 1, ttl := 3600, committed := [1], pending_add := [], pending_del := [] }],
    dstatus := .AUTH, parent := some [1], subdomain_count := 0, subdomain_auth := 0,
    denial := none, nsec_rrset := none, nsec3 := none,
    nsec_bitmap_changed := false, nsec_nxt_changed := false, internal_serial := 0 }

/-- Zone data with the apex and one child, for the C9 witness. -/
def zdNsecW : ZoneData :=
  { zonedata_create with domains := [domApexW, domChildW] }

/-- Witness for `nsecify_spec`: on a two-domain zone the chain links
apex → child → apex. -/
theorem nsecify_spec_witness :
    zonedata_nsecify zdNsecW 1 =
      (.OK, { zdNsecW with
          domains := expectedNsecChain zdNsecW.default_ttl 1 domApexW zdNsecW.domains }) ∧
    ∀ d2 ∈ expectedNsecChain zdNsecW.default_ttl 1 domApexW zdNsecW.domains,
      nsecSkip d2 = false →
      ∃ nr, d2.nsec_rrset = some nr ∧
        ∃ t, (t ∈ zdNsecW.domains ∨ t = domApexW) ∧ nsecSkip t = false ∧
          nr.nxt = t.dname :=
  nsecify_spec zdNsecW 1 domApexW (by decide) (by decide)

/-! ## Commit and the empty-leaf collection (zonedata_commit) -/

/-- Modelled from the spec (§4.2): RRset commit promotes the pending
changes into the committed content and clears the pending sets. -/
def rrset_commit (r : RRset) : RRset :=
  { r with committed := r.committed.filter (fun x => !r.pending_del.contains x) ++ r.pending_add,
           pending_add := [], pending_del := [] }

/-- Modelled from the spec: `domain_commit` (domain.c, not among the
sources) commits every RRset, discards RRsets left without any RR — this
is what makes a domain empty for the leaf collection of §4.3.9/§4.3.11 —
and refreshes the bitmap-changed flag.  The model always succeeds; claims
about the failure codes of the real function treat the per-domain commit
as a parameter `dc` instead. -/
def domain_commit (d : Domain) : Nat × Domain :=
  (0, { d with rrsets := (d.rrsets.map rrset_commit).filter (fun r => !r.committed.isEmpty),
               nsec_bitmap_changed := d.nsec_bitmap_changed || d.rrsets.any (fun r => !r.pending_add.isEmpty || !r.pending_del.isEmpty) })

/-- Update the entry at an index in place. -/
def modIdx (f : Domain → Domain) : Nat → List Domain → List Domain
  | _, [] => []
  | 0, x :: xs => f x :: xs
  | n + 1, x :: xs => x :: modIdx f n xs

/-- Deleting a domain with status AUTH or DS also decrements the
authoritative subdomain counter (zonedata.c:461-464). -/
def isAuthDel (st : DomainStatus) : Bool := st == .AUTH || st == .DS

/-- Index of the first entry satisfying the predicate
(`ldns_rbtree_search` resolving a key to its node). -/
def findIdxD (pr : Domain → Bool) : List Domain → Option Nat
  | [] => none
  | x :: xs => if pr x then some 0 else (findIdxD pr xs).map (· + 1)

/-- The parent-counter decrement of `zonedata_del_domain_fixup`
(zonedata.c:459-465), applied through the parent pointer (by key). -/
def decFn (dom : Domain) (x : Domain) : Domain :=
  { x with subdomain_count := x.subdomain_count - 1,
           subdomain_auth := if isAuthDel dom.dstatus then x.subdomain_auth - 1 else x.subdomain_auth }

def decParent (dom : Domain) (tree : List Domain) : List Domain :=
  match dom.parent with
  | some pn => updDomain pn (decFn dom) tree
  | none => tree

/-- The predecessor marking of `zonedata_del_domain_fixup`
(zonedata.c:444-458): flag the neighbour as needing a new NSEC next name. -/
def markNxt (x : Domain) : Domain := { x with nsec_nxt_changed := true }

/-- `zonedata_del_domain_fixup` (zonedata.c:429-476): locate the node with
the key; mark its in-order predecessor — wrapping around to the tree
maximum — `nsec_nxt_changed`; remove the node; decrement the subdomain
counters of the domain referenced by the parent pointer.  `false` when
the key is not in the tree (the C function returns the domain to the
caller and changes nothing). -/
def delDomainFixup (tree : List Domain) (dom : Domain) : Bool × List Domain :=
  match findIdxD (fun x => x.dname == dom.dname) tree with
  | none => (false, tree)
  | some i =>
    let previdx := if i = 0 then tree.length - 1 else i - 1
    let tree1 := modIdx markNxt previdx tree
    let tree2 := tree1.eraseIdx i
    (true, decParent dom tree2)

/-- `zonedata_del_domain` (zonedata.c:497-531): first remove the NSEC3
shadow domain (when the back-link is set; with no shadow tree the C
asserts), then the domain itself from the main tree. -/
def zonedata_del_domain (domains : List Domain) (n3 : Option (List Domain))
    (dom : Domain) : Bool × List Domain × Option (List Domain) :=
  let n3b :=
    match dom.nsec3, n3 with
    | some nm, some sh =>
      match sh.find? (fun x => x.dname == nm) with
      | some shd => some (delDomainFixup sh shd).2
      | none => some sh
    | _, _ => n3
  let r := delDomainFixup domains dom
  (r.1, r.2, n3b)

/-- The loop of `zonedata_commit` (zonedata.c:862-902): reverse canonical
iteration, `p` counts the positions still to visit so the current node
sits at index `p - 1`; the iterator element survives deletions of later
nodes because those only shift higher indices.  `dc` is the per-domain
commit (`domain_commit`, domain.c — not among the sources).  On a commit
failure the status is returned as is; when the empty-leaf deletion cannot
find the node the C returns `ODS_STATUS_ERR`, modelled as code 2. -/
def commitIdx (dc : Domain → Nat × Domain) :
    Nat → List Domain → Option (List Domain) → Nat × List Domain × Option (List Domain)
  | 0, tree, n3 => (0, tree, n3)
  | p + 1, tree, n3 =>
    match tree.get? p with
    | none => (0, tree, n3)
    | some d =>
      let ed := dc d
      let tree1 := tree.set p ed.2
      if ed.1 ≠ 0 then (ed.1, tree1, n3)
      else
        if domain_count_rrset ed.2 == 0 &&
           (match tree1.get? (p + 1) with
            | none => true
            | some nxt => !isSubdomainOf nxt.dname ed.2.dname) then
          let r := zonedata_del_domain tree1 n3 ed.2
          if !r.1 then (2, r.2.1, r.2.2)
          else commitIdx dc p r.2.1 r.2.2
        else commitIdx dc p tree1 n3

/-- `zonedata_commit` (zonedata.c:848-904).  The status is the C integer
(0 = ODS_STATUS_OK); the disabled obsolete-denial branch of the source
(lines 891-900) has no effect and is not modelled. -/
def zonedata_commit (dc : Domain → Nat × Domain) (zd : ZoneData) : Nat × ZoneData :=
  let r := commitIdx dc zd.domains.length zd.domains zd.nsec3_domains
  (r.1, { zd with domains := r.2.1, nsec3_domains := r.2.2 })

/-- The invariant of the domain tree: dnames strictly increasing in
canonical order. -/
def SortedDom (l : List Domain) : Prop :=
  l.Pairwise (fun a b => dnameLt a.dname b.dname = true)

/-- Number of names in `ns` that are immediate children of `p`. -/
def childCountN (ns : List Dname) (p : Dname) : Nat :=
  ns.countP (fun c => c.dropLast == p && c.length == p.length + 1)

/-- Parent pointers are sane: they reference the name one label up
(spec invariant 2, established by `zonedata_entize`). -/
def ParentOk (l : List Domain) : Prop :=
  ∀ x ∈ l, x.parent = none ∨ (x.dname ≠ [] ∧ x.parent = some x.dname.dropLast)

/-- Subdomain counters dominate the number of immediate children present
(spec invariant 2). -/
def CntOk (l : List Domain) : Prop :=
  ∀ x ∈ l, childCountN (l.map Domain.dname) x.dname ≤ x.subdomain_count

/-- The name set is closed towards children: between an ancestor and any
of its subdomains the immediate child on the path exists (the state
`zonedata_entize` establishes). -/
def ClosedN (ns : List Dname) : Prop :=
  ∀ a ∈ ns, ∀ b ∈ ns, a <+: b → a ≠ b → b.take (a.length + 1) ∈ ns

theorem modIdx_length (f : Domain → Domain) :
    ∀ (j : Nat) (l : List Domain), (modIdx f j l).length = l.length := by
  intro j l
  induction l generalizing j with
  | nil => cases j <;> rfl
  | cons x xs ih =>
    cases j with
    | zero => rfl
    | succ j => simpa [modIdx] using ih j

theorem modIdx_getElem? (f : Domain → Domain) :
    ∀ (l : List Domain) (j i : Nat),
      (modIdx f j l)[i]? = if i = j then (l[i]?).map f else l[i]? := by
  intro l
  induction l with
  | nil =>
    intro j i
    cases j <;> simp [modIdx]
  | cons x xs ih =>
    intro j i
    cases j with
    | zero =>
      cases i with
      | zero => simp [modIdx]
      | succ i => simp [modIdx]
    | succ j =>
      cases i with
      | zero => simp [modIdx]
      | succ i => simpa [modIdx] using ih j i

theorem eraseIdx_getElem? {α : Type} :
    ∀ (l : List α) (j i : Nat),
      (l.eraseIdx j)[i]? = if i < j then l[i]? else l[i + 1]? := by
  intro l
  induction l with
  | nil =>
    intro j i
    simp [List.eraseIdx]
  | cons x xs ih =>
    intro j i
    cases j with
    | zero =>
      simp [List.eraseIdx]
    | succ j =>
      cases i with
      | zero => simp [List.eraseIdx]
      | succ i =>
        simp only [List.eraseIdx_cons_succ, List.getElem?_cons_succ]
        rw [ih j i]
        simp only [Nat.add_lt_add_iff_right]

theorem updDomain_length (o : Dname) (f : Domain → Domain) :
    ∀ l : List Domain, (updDomain o f l).length = l.length := by
  intro l
  induction l with
  | nil => rfl
  | cons x xs ih =>
    unfold updDomain
    cases hx : x.dname == o with
    | true => simp
    | false => simpa using ih

theorem updDomain_map_dname (o : Dname) (f : Domain → Domain)
    (hf : ∀ x, (f x).dname = x.dname) :
    ∀ l : List Domain, (updDomain o f l).map Domain.dname = l.map Domain.dname := by
  intro l
  induction l with
  | nil => rfl
  | cons x xs ih =>
    unfold updDomain
    cases hx : x.dname == o with
    | true => simp [hf]
    | false => simpa using ih

theorem updDomain_getElem? (o : Dname) (f : Domain → Domain) :
    ∀ (l : List Domain) (i : Nat),
      (updDomain o f l)[i]? = l[i]? ∨
      ∃ x, l[i]? = some x ∧ (x.dname == o) = true ∧
        (updDomain o f l)[i]? = some (f x) := by
  intro l
  induction l with
  | nil => intro i; left; rfl
  | cons x xs ih =>
    intro i
    cases hx : x.dname == o with
    | true =>
      cases i with
      | zero => exact Or.inr ⟨x, by simp, hx, by simp [updDomain, hx]⟩
      | succ i => left; simp [updDomain, hx]
    | false =>
      cases i with
      | zero => left; simp [updDomain, hx]
      | succ i =>
        rcases ih i with h | ⟨y, h1, h2, h3⟩
        · left
          simpa [updDomain, hx] using h
        · right
          refine ⟨y, by simpa using h1, h2, ?_⟩
          simpa [updDomain, hx] using h3

theorem updDomain_no_match (o : Dname) (f : Domain → Domain) :
    ∀ l : List Domain, (∀ y ∈ l, (y.dname == o) = false) → updDomain o f l = l := by
  intro l
  induction l with
  | nil => intro _; rfl
  | cons x xs ih =>
    intro h
    unfold updDomain
    rw [h x (by simp)]
    simp only [Bool.false_eq_true, if_false, List.cons.injEq, true_and]
    exact ih (fun y hy => h y (by simp [hy]))

theorem updDomain_append (o : Dname) (f : Domain → Domain) :
    ∀ (l1 : List Domain) (x : Domain) (l2 : List Domain),
    (∀ y ∈ l1, (y.dname == o) = false) → (x.dname == o) = true →
    updDomain o f (l1 ++ x :: l2) = l1 ++ f x :: l2 := by
  intro l1
  induction l1 with
  | nil =>
    intro x l2 _ hx
    simp only [List.nil_append, updDomain, hx, if_true]
  | cons y ys ih =>
    intro x l2 hno hx
    have hy : (y.dname == o) = false := hno y (by simp)
    simp only [List.cons_append, updDomain, hy, Bool.false_eq_true, if_false,
      List.cons.injEq, true_and]
    exact ih x l2 (fun z hz => hno z (by simp [hz])) hx

theorem findIdxD_first (pr : Domain → Bool) :
    ∀ (l : List Domain) (p : Nat) (d : Domain),
    l[p]? = some d → pr d = true →
    (∀ i, i < p → ∀ e, l[i]? = some e → pr e = false) →
    findIdxD pr l = some p := by
  intro l
  induction l with
  | nil => intro p d hg; simp at hg
  | cons x xs ih =>
    intro p d hg hd hfirst
    cases p with
    | zero =>
      simp only [List.getElem?_cons_zero, Option.some.injEq] at hg
      subst hg
      unfold findIdxD
      rw [hd]
      rfl
    | succ p =>
      have hx : pr x = false := hfirst 0 (Nat.succ_pos p) x (by simp)
      unfold findIdxD
      rw [hx]
      simp only [Bool.false_eq_true, if_false]
      rw [ih p d (by simpa using hg) hd
        (fun i hi e he => hfirst (i + 1) (Nat.succ_lt_succ hi) e (by simpa using he))]
      rfl

theorem countP_eraseIdx (pr : Dname → Bool) :
    ∀ (ns : List Dname) (p : Nat) (n : Dname), ns[p]? = some n →
      (ns.eraseIdx p).countP pr = ns.countP pr - (if pr n then 1 else 0) := by
  intro ns
  induction ns with
  | nil => intro p n hg; simp at hg
  | cons m ls ih =>
    intro p n hg
    cases p with
    | zero =>
      simp only [List.getElem?_cons_zero, Option.some.injEq] at hg
      subst hg
      show ls.countP pr = (m :: ls).countP pr - _
      rw [List.countP_cons]
      cases hm : pr m <;> simp [hm]
    | succ p =>
      have hg2 : ls[p]? = some n := by simpa using hg
      show (m :: ls.eraseIdx p).countP pr = _
      rw [List.countP_cons, List.countP_cons, ih p n hg2]
      have hle : (if pr n then 1 else 0) ≤ ls.countP pr := by
        cases hn : pr n with
        | false => simp
        | true =>
          simp only [if_true]
          rw [Nat.succ_le_iff]
          rw [List.countP_pos_iff]
          exact ⟨n, by
            rw [List.mem_iff_getElem?]
            exact ⟨p, hg2⟩, hn⟩
      omega

/-- The loop invariant of `zonedata_commit`: at every already-visited
position (index at least `p`) an empty domain kept in the tree has its
canonical successor below it. -/
def ProcessedOk (p : Nat) (tree : List Domain) : Prop :=
  ∀ i, p ≤ i → ∀ d, tree[i]? = some d → domain_count_rrset d = 0 →
    ∃ nxt, tree[i + 1]? = some nxt ∧ isSubdomainOf nxt.dname d.dname = true

/-- The per-domain commit rewrites RRsets only: name, parent pointer and
subdomain counter survive (`domain_commit`, domain.c). -/
def dcPreserves (dc : Domain → Nat × Domain) : Prop :=
  ∀ d, (dc d).2.dname = d.dname ∧ (dc d).2.parent = d.parent ∧
    (dc d).2.subdomain_count = d.subdomain_count

theorem domain_commit_preserves : dcPreserves domain_commit :=
  fun _ => ⟨rfl, rfl, rfl⟩

/-- The fields of a domain the commit loop inspects: its name and its
RRset list. -/
def drOf (x : Domain) : Dname × List RRset := (x.dname, x.rrsets)

theorem processedOk_of_length (p : Nat) (tree : List Domain)
    (h : tree.length ≤ p) : ProcessedOk p tree := by
  intro i hi d hd
  rw [List.getElem?_eq_none (Nat.le_trans h hi)] at hd
  exact absurd hd (by simp)

theorem sortedDom_names (l : List Domain) :
    SortedDom l ↔ (l.map Domain.dname).Pairwise (fun a b => dnameLt a b = true) := by
  unfold SortedDom
  rw [List.pairwise_map]

theorem pairwise_lt_index {ns : List Dname}
    (h : ns.Pairwise (fun a b => dnameLt a b = true)) {i j : Nat} {a b : Dname}
    (hij : i < j) (ha : ns[i]? = some a) (hb : ns[j]? = some b) :
    dnameLt a b = true := by
  rw [List.getElem?_eq_some] at ha hb
  obtain ⟨hi, ha⟩ := ha
  obtain ⟨hj, hb⟩ := hb
  subst ha hb
  exact List.pairwise_iff_get.mp h ⟨i, hi⟩ ⟨j, hj⟩ hij

theorem setIdx_self {α : Type} :
    ∀ (l : List α) (i : Nat) (a : α), l[i]? = some a → l.set i a = l := by
  intro l
  induction l with
  | nil => intro i a h; simp at h
  | cons x xs ih =>
    intro i a h
    cases i with
    | zero =>
      simp only [List.getElem?_cons_zero, Option.some.injEq] at h
      subst h
      rfl
    | succ i =>
      show x :: xs.set i a = x :: xs
      rw [ih i a (by simpa using h)]

theorem map_eraseIdx {α β : Type} (f : α → β) :
    ∀ (l : List α) (p : Nat), (l.eraseIdx p).map f = (l.map f).eraseIdx p := by
  intro l
  induction l with
  | nil => intro p; rfl
  | cons x xs ih =>
    intro p
    cases p with
    | zero => rfl
    | succ p =>
      show f x :: (xs.eraseIdx p).map f = f x :: (xs.map f).eraseIdx p
      rw [ih p]

theorem mem_updDomain_cases (o : Dname) (f : Domain → Domain) :
    ∀ (l : List Domain) (x : Domain), x ∈ updDomain o f l →
      x ∈ l ∨ ∃ y ∈ l, (y.dname == o) = true ∧ x = f y := by
  intro l
  induction l with
  | nil => intro x hx; exact absurd hx (by simp [updDomain])
  | cons z zs ih =>
    intro x hx
    cases hz : z.dname == o with
    | true =>
      simp only [updDomain, hz, if_true] at hx
      rcases List.mem_cons.mp hx with h | h
      · exact Or.inr ⟨z, by simp, hz, h⟩
      · exact Or.inl (by simp [h])
    | false =>
      simp only [updDomain, hz, Bool.false_eq_true, if_false] at hx
      rcases List.mem_cons.mp hx with h | h
      · exact Or.inl (by simp [h])
      · rcases ih x h with h2 | ⟨y, hy, hyo, hxy⟩
        · exact Or.inl (by simp [h2])
        · exact Or.inr ⟨y, by simp [hy], hyo, hxy⟩

theorem mem_modIdx_cases (f : Domain → Domain) :
    ∀ (j : Nat) (l : List Domain) (x : Domain), x ∈ modIdx f j l →
      x ∈ l ∨ ∃ y ∈ l, x = f y := by
  intro j l
  induction l generalizing j with
  | nil => intro x hx; cases j <;> exact absurd hx (by simp [modIdx])
  | cons z zs ih =>
    intro x hx
    cases j with
    | zero =>
      rcases List.mem_cons.mp hx with h | h
      · exact Or.inr ⟨z, by simp, h⟩
      · exact Or.inl (by simp [h])
    | succ j =>
      rcases List.mem_cons.mp hx with h | h
      · exact Or.inl (by simp [h])
      · rcases ih j x h with h2 | ⟨y, hy, hxy⟩
        · exact Or.inl (by simp [h2])
        · exact Or.inr ⟨y, by simp [hy], hxy⟩

theorem setIdx_getElem? {α : Type} :
    ∀ (l : List α) (j : Nat) (a : α) (i : Nat),
      (l.set j a)[i]? = if i = j then (l[i]?).map (fun _ => a) else l[i]? := by
  intro l
  induction l with
  | nil =>
    intro j a i
    simp
  | cons x xs ih =>
    intro j a i
    cases j with
    | zero =>
      cases i with
      | zero => simp
      | succ i => simp
    | succ j =>
      cases i with
      | zero => simp
      | succ i =>
        simp only [List.set_cons_succ, List.getElem?_cons_succ]
        rw [ih j a i]
        rcases Decidable.em (i = j) with h | h
        · rw [if_pos h, if_pos (by omega)]
        · rw [if_neg h, if_neg (by omega)]

theorem updDomain_dr (o : Dname) (f : Domain → Domain)
    (hf : ∀ x, drOf (f x) = drOf x) (l : List Domain) (i : Nat) :
    ((updDomain o f l)[i]?).map drOf = (l[i]?).map drOf := by
  rcases updDomain_getElem? o f l i with h | ⟨x, h1, _, h3⟩
  · rw [h]
  · rw [h1, h3]
    show some (drOf (f x)) = some (drOf x)
    rw [hf x]

theorem modIdx_dr (f : Domain → Domain) (hf : ∀ x, drOf (f x) = drOf x) :
    ∀ (j : Nat) (l : List Domain) (i : Nat),
      ((modIdx f j l)[i]?).map drOf = (l[i]?).map drOf := by
  intro j l i
  rw [modIdx_getElem?]
  rcases Decidable.em (i = j) with h | h
  · rw [if_pos h]
    cases hl : l[i]? with
    | none => rfl
    | some x =>
      show some (drOf (f x)) = some (drOf x)
      rw [hf x]
  · rw [if_neg h]

theorem decParent_dr (dom : Domain) (l : List Domain) (i : Nat) :
    ((decParent dom l)[i]?).map drOf = (l[i]?).map drOf := by
  unfold decParent
  cases dom.parent with
  | none => rfl
  | some pn => exact updDomain_dr pn (decFn dom) (fun x => rfl) l i

theorem modIdx_map_dname (f : Domain → Domain) (hf : ∀ x, (f x).dname = x.dname) :
    ∀ (j : Nat) (l : List Domain), (modIdx f j l).map Domain.dname = l.map Domain.dname := by
  intro j l
  induction l generalizing j with
  | nil => cases j <;> rfl
  | cons x xs ih =>
    cases j with
    | zero =>
      show (f x).dname :: _ = x.dname :: xs.map Domain.dname
      rw [hf x]
    | succ j =>
      show x.dname :: (modIdx f j xs).map Domain.dname = x.dname :: xs.map Domain.dname
      rw [ih j]

theorem decParent_map_dname (dom : Domain) (l : List Domain) :
    (decParent dom l).map Domain.dname = l.map Domain.dname := by
  unfold decParent
  cases dom.parent with
  | none => rfl
  | some pn => exact updDomain_map_dname pn (decFn dom) (fun x => rfl) l

theorem map_dname_set (tree : List Domain) (p : Nat) (d x : Domain)
    (hd : tree[p]? = some d) (hx : x.dname = d.dname) :
    (tree.set p x).map Domain.dname = tree.map Domain.dname := by
  rw [List.map_set]
  apply setIdx_self
  rw [List.getElem?_map, hd]
  simp [hx]

theorem decParent_mem (dom : Domain) (l : List Domain) (x : Domain)
    (hx : x ∈ decParent dom l) :
    ∃ y ∈ l, x.dname = y.dname ∧ x.parent = y.parent ∧
      (x.subdomain_count = y.subdomain_count ∨
       (dom.parent = some y.dname ∧ x.subdomain_count = y.subdomain_count - 1)) := by
  unfold decParent at hx
  cases hp : dom.parent with
  | none =>
    rw [hp] at hx
    exact ⟨x, hx, rfl, rfl, Or.inl rfl⟩
  | some pn =>
    rw [hp] at hx
    rcases mem_updDomain_cases pn (decFn dom) l x hx with h | ⟨y, hy, hyo, hxy⟩
    · exact ⟨x, h, rfl, rfl, Or.inl rfl⟩
    · subst hxy
      exact ⟨y, hy, rfl, rfl,
        Or.inr ⟨congrArg some (beq_iff_eq.mp hyo).symm, rfl⟩⟩

theorem childCountN_eraseIdx (ns : List Dname) (p : Nat) (n : Dname)
    (h : ns[p]? = some n) (q : Dname) :
    childCountN (ns.eraseIdx p) q =
      childCountN ns q - (if (n.dropLast == q && n.length == q.length + 1) then 1 else 0) :=
  countP_eraseIdx _ ns p n h

theorem childCountN_eraseIdx_le (ns : List Dname) (p : Nat) (q : Dname) :
    childCountN (ns.eraseIdx p) q ≤ childCountN ns q :=
  List.Sublist.countP_le _ (List.eraseIdx_sublist ns p)

theorem child_pred_self (en : Dname) (hne : en ≠ []) :
    (en.dropLast == en.dropLast && en.length == en.dropLast.length + 1) = true := by
  rw [Bool.and_eq_true, beq_iff_eq, beq_iff_eq]
  refine ⟨rfl, ?_⟩
  rw [List.length_dropLast]
  have : 0 < en.length := List.length_pos.mpr hne
  omega

theorem mem_eraseIdx_of_getElem?_ne {α : Type} (l : List α) (p j : Nat) (c : α)
    (hj : l[j]? = some c) (hne : j ≠ p) : c ∈ l.eraseIdx p := by
  rw [List.mem_iff_getElem?]
  rcases Nat.lt_or_ge j p with h | h
  · refine ⟨j, ?_⟩
    rw [eraseIdx_getElem? l p j, if_pos h, hj]
  · have hpj : p < j := Nat.lt_of_le_of_ne h (fun e => hne e.symm)
    refine ⟨j - 1, ?_⟩
    rw [eraseIdx_getElem? l p (j - 1), if_neg (by omega)]
    have hjj : j - 1 + 1 = j := by omega
    rw [hjj, hj]

theorem isSubdomainOf_iff {sub par : Dname} :
    isSubdomainOf sub par = true ↔ par <+: sub ∧ par ≠ sub := by
  unfold isSubdomainOf
  rw [Bool.and_eq_true, decide_eq_true_eq, List.isPrefixOf_iff_prefix]
  tauto

theorem mem_eraseIdx_idx {α : Type} (l : List α) (p : Nat) (c : α)
    (hc : c ∈ l.eraseIdx p) : ∃ j, j ≠ p ∧ l[j]? = some c := by
  rw [List.mem_iff_getElem?] at hc
  obtain ⟨j, hj⟩ := hc
  rw [eraseIdx_getElem? l p j] at hj
  rcases Decidable.em (j < p) with h | h
  · rw [if_pos h] at hj
    exact ⟨j, Nat.ne_of_lt h, hj⟩
  · rw [if_neg h] at hj
    exact ⟨j + 1, by omega, hj⟩

theorem delResult_map_dname (dom : Domain) (tree1 : List Domain) (previdx p : Nat) :
    (decParent dom ((modIdx markNxt previdx tree1).eraseIdx p)).map Domain.dname
      = (tree1.map Domain.dname).eraseIdx p := by
  rw [decParent_map_dname, map_eraseIdx, modIdx_map_dname markNxt (fun x => rfl)]

theorem delResult_dr (dom : Domain) (tree1 : List Domain) (previdx p i : Nat)
    (hpi : p ≤ i) :
    ((decParent dom ((modIdx markNxt previdx tree1).eraseIdx p))[i]?).map drOf
      = (tree1[i + 1]?).map drOf := by
  rw [decParent_dr, eraseIdx_getElem? _ p i, if_neg (Nat.not_lt.mpr hpi),
    modIdx_dr markNxt (fun x => rfl)]

theorem delResult_mem (dom : Domain) (tree1 : List Domain) (previdx p : Nat)
    (x : Domain)
    (hx : x ∈ decParent dom ((modIdx markNxt previdx tree1).eraseIdx p)) :
    ∃ y ∈ tree1, x.dname = y.dname ∧ x.parent = y.parent ∧
      (x.subdomain_count = y.subdomain_count ∨
        (dom.parent = some y.dname ∧ x.subdomain_count = y.subdomain_count - 1)) := by
  obtain ⟨y, hy, h1, h2, h3⟩ := decParent_mem dom _ x hx
  have hy2 : y ∈ modIdx markNxt previdx tree1 := List.mem_of_mem_eraseIdx hy
  rcases mem_modIdx_cases markNxt previdx tree1 y hy2 with h | ⟨z, hz, hyz⟩
  · exact ⟨y, h, h1, h2, h3⟩
  · subst hyz
    exact ⟨z, hz, h1, h2, h3⟩

theorem closedN_eraseIdx (N : List Dname) (p : Nat) (en : Dname)
    (hs : N.Pairwise (fun a b => dnameLt a b = true))
    (hN : N[p]? = some en)
    (hcl : ClosedN N)
    (hsucc : ∀ m, N[p + 1]? = some m → isSubdomainOf m en = false) :
    ClosedN (N.eraseIdx p) := by
  intro a ha b hb hab hne
  obtain ⟨ja, hja, hga⟩ := mem_eraseIdx_idx N p a ha
  obtain ⟨jb, hjb, hgb⟩ := mem_eraseIdx_idx N p b hb
  have haN : a ∈ N := by rw [List.mem_iff_getElem?]; exact ⟨ja, hga⟩
  have hbN : b ∈ N := by rw [List.mem_iff_getElem?]; exact ⟨jb, hgb⟩
  have hcN : b.take (a.length + 1) ∈ N := hcl a haN b hbN hab hne
  rw [List.mem_iff_getElem?] at hcN
  obtain ⟨jc, hgc⟩ := hcN
  have hcne : b.take (a.length + 1) ≠ en := by
    intro hceq
    -- the erased name would be an ancestor of a surviving domain `b`
    have hpre : en <+: b := hceq ▸ List.take_prefix _ b
    have hben : b ≠ en := by
      intro hbe
      subst hbe
      rcases Nat.lt_or_ge jb p with h | h
      · have := pairwise_lt_index hs h hgb hN
        rw [dnameLt_irrefl] at this
        exact absurd this (by simp)
      · have hlt : p < jb := Nat.lt_of_le_of_ne h (fun e => hjb e.symm)
        have := pairwise_lt_index hs hlt hN hgb
        rw [dnameLt_irrefl] at this
        exact absurd this (by simp)
    have hlt_en_b : dnameLt en b = true :=
      dnameLt_of_proper_prefix hpre (fun e => hben e.symm)
    have hpjb : p < jb := by
      rcases Nat.lt_or_ge jb p with h | h
      · have h2 := pairwise_lt_index hs h hgb hN
        rw [dnameLt_asymm h2] at hlt_en_b
        exact absurd hlt_en_b (by simp)
      · exact Nat.lt_of_le_of_ne h (fun e => hjb e.symm)
    have hlenb : jb < N.length := (List.getElem?_eq_some.mp hgb).1
    have hp1 : p + 1 < N.length := by omega
    have hgm : N[p + 1]? = some N[p + 1] := List.getElem?_eq_getElem hp1
    rcases Decidable.em (jb = p + 1) with hjb1 | hjb1
    · have : N[p + 1]? = some b := hjb1 ▸ hgb
      have hsub : isSubdomainOf b en = true :=
        isSubdomainOf_iff.mpr ⟨hpre, fun e => hben e.symm⟩
      rw [hsucc b this] at hsub
      exact absurd hsub (by simp)
    · set m := N[p + 1] with hm
      have hlt_en_m : dnameLt en m = true :=
        pairwise_lt_index hs (Nat.lt_succ_self p) hN hgm
      have hlt_m_b : dnameLt m b = true :=
        pairwise_lt_index hs (by omega) hgm hgb
      have hpre_m : en <+: m :=
        prefix_of_between hpre (fun e => hben e.symm) hlt_en_m (dnameLt_asymm hlt_m_b)
      have hen_m : en ≠ m := by
        intro he
        rw [← he, dnameLt_irrefl] at hlt_en_m
        exact absurd hlt_en_m (by simp)
      have hsub : isSubdomainOf m en = true := isSubdomainOf_iff.mpr ⟨hpre_m, hen_m⟩
      rw [hsucc m hgm] at hsub
      exact absurd hsub (by simp)
  have hjcp : jc ≠ p := by
    intro he
    rw [he, hN, Option.some.injEq] at hgc
    exact hcne hgc.symm
  exact mem_eraseIdx_of_getElem?_ne N p jc _ hgc hjcp

theorem mem_of_getElem? {α : Type} {l : List α} {i : Nat} {a : α}
    (h : l[i]? = some a) : a ∈ l :=
  List.mem_iff_getElem?.mpr ⟨i, h⟩

theorem decParent_length (dom : Domain) (l : List Domain) :
    (decParent dom l).length = l.length := by
  unfold decParent
  cases dom.parent with
  | none => rfl
  | some pn => exact updDomain_length pn (decFn dom) l

theorem parentOk_set (tree : List Domain) (p : Nat) (d x : Domain)
    (hd : tree[p]? = some d) (hdn : x.dname = d.dname) (hpp : x.parent = d.parent)
    (hp : ParentOk tree) : ParentOk (tree.set p x) := by
  intro y hy
  rcases List.mem_or_eq_of_mem_set hy with h | h
  · exact hp y h
  · subst h
    rw [hdn, hpp]
    exact hp d (mem_of_getElem? hd)

theorem cntOk_set (tree : List Domain) (p : Nat) (d x : Domain)
    (hd : tree[p]? = some d) (hdn : x.dname = d.dname)
    (hsc : x.subdomain_count = d.subdomain_count)
    (hc : CntOk tree) : CntOk (tree.set p x) := by
  intro y hy
  rw [map_dname_set tree p d x hd hdn]
  rcases List.mem_or_eq_of_mem_set hy with h | h
  · exact hc y h
  · subst h
    rw [hdn, hsc]
    exact hc d (mem_of_getElem? hd)

theorem sortedDom_delResult (tree1 : List Domain) (dom : Domain) (previdx p : Nat)
    (hs : SortedDom tree1) :
    SortedDom (decParent dom ((modIdx markNxt previdx tree1).eraseIdx p)) := by
  rw [sortedDom_names] at hs ⊢
  rw [delResult_map_dname]
  exact hs.sublist (List.eraseIdx_sublist _ p)

theorem parentOk_delResult (tree1 : List Domain) (dom : Domain) (previdx p : Nat)
    (hp : ParentOk tree1) :
    ParentOk (decParent dom ((modIdx markNxt previdx tree1).eraseIdx p)) := by
  intro x hx
  obtain ⟨y, hy, h1, h2, _⟩ := delResult_mem dom tree1 previdx p x hx
  rw [h1, h2]
  exact hp y hy

theorem cntOk_delResult (tree1 : List Domain) (dom : Domain) (previdx p : Nat)
    (hd1 : tree1[p]? = some dom)
    (hpar : dom.parent = none ∨ (dom.dname ≠ [] ∧ dom.parent = some dom.dname.dropLast))
    (hc : CntOk tree1) :
    CntOk (decParent dom ((modIdx markNxt previdx tree1).eraseIdx p)) := by
  intro x hx
  rw [delResult_map_dname]
  obtain ⟨y, hy, h1, h2, h3⟩ := delResult_mem dom tree1 previdx p x hx
  have hcy : childCountN (tree1.map Domain.dname) y.dname ≤ y.subdomain_count := hc y hy
  have hNp : (tree1.map Domain.dname)[p]? = some dom.dname := by
    rw [List.getElem?_map, hd1]
    rfl
  rcases h3 with h3 | ⟨hp2, h3⟩
  · have hle := childCountN_eraseIdx_le (tree1.map Domain.dname) p x.dname
    rw [h1] at hle ⊢
    omega
  · rcases hpar with hnone | ⟨hne, hsome⟩
    · rw [hnone] at hp2
      exact absurd hp2 (by simp)
    · have hyd : y.dname = dom.dname.dropLast := by
        rw [hsome] at hp2
        exact (Option.some.injEq _ _ ▸ hp2 : _).symm
      rw [childCountN_eraseIdx _ p dom.dname hNp, h1, hyd,
        if_pos (child_pred_self dom.dname hne)]
      rw [hyd] at hcy
      omega

theorem processedOk_set_up (tree : List Domain) (p : Nat) (x : Domain)
    (hpr : ProcessedOk (p + 1) tree) : ProcessedOk (p + 1) (tree.set p x) := by
  intro i hi e hie hc
  rw [setIdx_getElem?, if_neg (by omega)] at hie
  obtain ⟨nxt, h1, h2⟩ := hpr i hi e hie hc
  refine ⟨nxt, ?_, h2⟩
  rw [setIdx_getElem?, if_neg (by omega)]
  exact h1

theorem processedOk_delResult (tree1 : List Domain) (dom : Domain) (previdx p : Nat)
    (hpr : ProcessedOk (p + 1) tree1) :
    ProcessedOk p (decParent dom ((modIdx markNxt previdx tree1).eraseIdx p)) := by
  intro i hi e hie hcount
  have hdr := delResult_dr dom tree1 previdx p i hi
  rw [hie] at hdr
  cases hte : tree1[i + 1]? with
  | none =>
    rw [hte] at hdr
    exact absurd hdr (by simp)
  | some f =>
    rw [hte] at hdr
    have hef : drOf e = drOf f := by simpa using hdr
    have hdn : e.dname = f.dname := congrArg Prod.fst hef
    have hrr : e.rrsets = f.rrsets := congrArg Prod.snd hef
    have hcf : domain_count_rrset f = 0 := by
      show f.rrsets.length = 0
      rw [← hrr]
      exact hcount
    obtain ⟨nxt, hn1, hn2⟩ := hpr (i + 1) (by omega) f hte hcf
    have hdr2 := delResult_dr dom tree1 previdx p (i + 1) (by omega)
    rw [hn1] at hdr2
    cases ht2 : (decParent dom ((modIdx markNxt previdx tree1).eraseIdx p))[i + 1]? with
    | none =>
      rw [ht2] at hdr2
      exact absurd hdr2 (by simp)
    | some g =>
      rw [ht2] at hdr2
      have hgn : g.dname = nxt.dname := congrArg Prod.fst (by simpa using hdr2)
      refine ⟨g, rfl, ?_⟩
      rw [hgn, hdn]
      exact hn2

theorem closedN_delResult (tree1 : List Domain) (dom : Domain) (previdx p : Nat)
    (hs : SortedDom tree1)
    (hd1 : tree1[p]? = some dom)
    (hcl : ClosedN (tree1.map Domain.dname))
    (hsucc : ∀ nxt, tree1[p + 1]? = some nxt →
      isSubdomainOf nxt.dname dom.dname = false) :
    ClosedN ((decParent dom ((modIdx markNxt previdx tree1).eraseIdx p)).map
      Domain.dname) := by
  rw [delResult_map_dname]
  apply closedN_eraseIdx (tree1.map Domain.dname) p dom.dname
  · exact (sortedDom_names tree1).mp hs
  · rw [List.getElem?_map, hd1]
    rfl
  · exact hcl
  · intro m hm
    rw [List.getElem?_map] at hm
    cases hnx : tree1[p + 1]? with
    | none =>
      rw [hnx] at hm
      exact absurd hm (by simp)
    | some nxt =>
      rw [hnx] at hm
      have hmn : nxt.dname = m := by simpa using hm
      rw [← hmn]
      exact hsucc nxt hnx

theorem commitIdx_gc (dc : Domain → Nat × Domain) (hdc : dcPreserves dc) :
    ∀ (p : Nat) (tree : List Domain) (n3 : Option (List Domain)),
    p ≤ tree.length →
    SortedDom tree → ParentOk tree → CntOk tree →
    ClosedN (tree.map Domain.dname) →
    ProcessedOk p tree →
    (commitIdx dc p tree n3).1 = 0 →
    CntOk (commitIdx dc p tree n3).2.1 ∧
    ClosedN ((commitIdx dc p tree n3).2.1.map Domain.dname) ∧
    ProcessedOk 0 (commitIdx dc p tree n3).2.1 := by
  intro p
  induction p with
  | zero =>
    intro tree n3 _ _ _ hcnt hcl hproc _
    exact ⟨hcnt, hcl, hproc⟩
  | succ p ih =>
    intro tree n3 hlen hs hpar hcnt hcl hproc h0
    have hplen : p < tree.length := hlen
    cases hd : tree[p]? with
    | none =>
      rw [List.getElem?_eq_none_iff] at hd
      omega
    | some d =>
    have hd2 : tree.get? p = some d := by
      rw [List.get?_eq_getElem?]
      exact hd
    obtain ⟨hedn, hedp, heds⟩ := hdc d
    have hmap1 : (tree.set p (dc d).2).map Domain.dname = tree.map Domain.dname :=
      map_dname_set tree p d (dc d).2 hd hedn
    have hs1 : SortedDom (tree.set p (dc d).2) := by
      rw [sortedDom_names, hmap1]
      exact (sortedDom_names tree).mp hs
    have hpar1 : ParentOk (tree.set p (dc d).2) :=
      parentOk_set tree p d _ hd hedn hedp hpar
    have hcnt1 : CntOk (tree.set p (dc d).2) :=
      cntOk_set tree p d _ hd hedn heds hcnt
    have hcl1 : ClosedN ((tree.set p (dc d).2).map Domain.dname) := by
      rw [hmap1]
      exact hcl
    have hlen1 : (tree.set p (dc d).2).length = tree.length := List.length_set tree p _
    have hget1 : ∀ i, i ≠ p → (tree.set p (dc d).2)[i]? = tree[i]? := by
      intro i hne
      rw [setIdx_getElem?, if_neg hne]
    have hget1p : (tree.set p (dc d).2)[p]? = some (dc d).2 := by
      rw [setIdx_getElem?, if_pos rfl, hd]
      rfl
    have hproc1up : ProcessedOk (p + 1) (tree.set p (dc d).2) :=
      processedOk_set_up tree p _ (fun i hi => hproc i hi)
    by_cases hstat : (dc d).1 = 0
    · cases hcond : (domain_count_rrset (dc d).2 == 0 &&
          (match (tree.set p (dc d).2).get? (p + 1) with
           | none => true
           | some nxt => !isSubdomainOf nxt.dname (dc d).2.dname)) with
      | false =>
        have heq : commitIdx dc (p + 1) tree n3 =
            commitIdx dc p (tree.set p (dc d).2) n3 := by
          simp only [commitIdx, hd2]
          rw [if_neg (by simp [hstat]), if_neg (by rw [hcond]; simp)]
        rw [heq] at h0 ⊢
        have hproc1 : ProcessedOk p (tree.set p (dc d).2) := by
          intro i hi e hie hcount
          rcases Nat.eq_or_lt_of_le hi with hip | hip
          · subst hip
            rw [hget1p] at hie
            have he : e = (dc d).2 := (Option.some.inj hie).symm
            subst he
            have hb1 : (domain_count_rrset (dc d).2 == 0) = true := beq_iff_eq.mpr hcount
            rw [hb1, Bool.true_and] at hcond
            cases hnx : (tree.set p (dc d).2).get? (p + 1) with
            | none =>
              rw [hnx] at hcond
              exact absurd hcond (by simp)
            | some nxt =>
              rw [hnx] at hcond
              refine ⟨nxt, ?_, ?_⟩
              · rw [← List.get?_eq_getElem?]
                exact hnx
              · rw [Bool.not_eq_false'] at hcond
                exact hcond
          · have hie2 : tree[i]? = some e := by
              rw [← hget1 i (by omega)]
              exact hie
            obtain ⟨nxt, hn1, hn2⟩ := hproc i (by omega) e hie2 hcount
            refine ⟨nxt, ?_, hn2⟩
            rw [hget1 (i + 1) (by omega)]
            exact hn1
        exact ih (tree.set p (dc d).2) n3 (by omega) hs1 hpar1 hcnt1 hcl1 hproc1 h0
      | true =>
        have hfind : findIdxD (fun x => x.dname == (dc d).2.dname)
            (tree.set p (dc d).2) = some p := by
          apply findIdxD_first _ _ p (dc d).2 hget1p (by simp)
          intro i hi e hie
          have hie2 : tree[i]? = some e := by
            rw [← hget1 i (by omega)]
            exact hie
          have hni : (tree.map Domain.dname)[i]? = some e.dname := by
            rw [List.getElem?_map, hie2]
            rfl
          have hnp : (tree.map Domain.dname)[p]? = some d.dname := by
            rw [List.getElem?_map, hd]
            rfl
          have hlt := pairwise_lt_index ((sortedDom_names tree).mp hs) hi hni hnp
          rw [hedn]
          exact beq_false_of_dnameLt hlt
        have hsucc : ∀ nxt, (tree.set p (dc d).2)[p + 1]? = some nxt →
            isSubdomainOf nxt.dname (dc d).2.dname = false := by
          intro nxt hnx
          have hb2 := (Bool.and_eq_true _ _ |>.mp hcond).2
          rw [List.get?_eq_getElem?, hnx] at hb2
          rw [Bool.not_eq_true'] at hb2
          exact hb2
        have hr1 : (zonedata_del_domain (tree.set p (dc d).2) n3 (dc d).2).1 = true := by
          simp only [zonedata_del_domain, delDomainFixup, hfind]
        have hr21 : (zonedata_del_domain (tree.set p (dc d).2) n3 (dc d).2).2.1 =
            decParent (dc d).2
              ((modIdx markNxt
                (if p = 0 then (tree.set p (dc d).2).length - 1 else p - 1)
                (tree.set p (dc d).2)).eraseIdx p) := by
          simp only [zonedata_del_domain, delDomainFixup, hfind]
        have heq : commitIdx dc (p + 1) tree n3 =
            commitIdx dc p (zonedata_del_domain (tree.set p (dc d).2) n3 (dc d).2).2.1
              (zonedata_del_domain (tree.set p (dc d).2) n3 (dc d).2).2.2 := by
          simp only [commitIdx, hd2]
          rw [if_neg (by simp [hstat]), if_pos hcond, hr1]
          simp
        rw [heq] at h0 ⊢
        rw [hr21] at h0 ⊢
        have hparD : (dc d).2.parent = none ∨
            ((dc d).2.dname ≠ [] ∧ (dc d).2.parent = some (dc d).2.dname.dropLast) := by
          rw [hedn, hedp]
          exact hpar d (mem_of_getElem? hd)
        have hlen2 : p ≤ (decParent (dc d).2
            ((modIdx markNxt
              (if p = 0 then (tree.set p (dc d).2).length - 1 else p - 1)
              (tree.set p (dc d).2)).eraseIdx p)).length := by
          rw [decParent_length, List.length_eraseIdx, modIdx_length, hlen1]
          have : p < tree.length := hplen
          simp only [this, if_pos]
          omega
        exact ih _ _ hlen2
          (sortedDom_delResult _ _ _ p hs1)
          (parentOk_delResult _ _ _ p hpar1)
          (cntOk_delResult _ _ _ p hget1p hparD hcnt1)
          (closedN_delResult _ _ _ p hs1 hget1p hcl1 hsucc)
          (processedOk_delResult _ _ _ p hproc1up)
          h0
    · have heq : commitIdx dc (p + 1) tree n3 = ((dc d).1, tree.set p (dc d).2, n3) := by
        simp only [commitIdx, hd2]
        rw [if_pos hstat]
      rw [heq] at h0
      exact absurd h0 hstat

/-- C7: `zonedata_commit` (zonedata.c:848-904) walks the domain tree in
reverse canonical order, commits each domain in place and deletes every
domain left without RRsets whose canonical successor is not its
descendant; consequently, when the commit returns OK, no remaining
domain has zero RRsets, a zero subdomain counter and a status outside
the ENT family.  The hypotheses are the rbtree and entize invariants:
sorted names, sane parent pointers, subdomain counters dominating the
present children, and a child-closed name set. -/
theorem commit_leaf_gc_spec (dc : Domain → Nat × Domain) (hdc : dcPreserves dc)
    (zd : ZoneData)
    (hs : SortedDom zd.domains) (hpar : ParentOk zd.domains)
    (hcnt : CntOk zd.domains) (hcl : ClosedN (zd.domains.map Domain.dname))
    (hok : (zonedata_commit dc zd).1 = 0) :
    ∀ d ∈ (zonedata_commit dc zd).2.domains,
      ¬(domain_count_rrset d = 0 ∧ d.subdomain_count = 0 ∧
        d.dstatus.isEnt = false) := by
  intro d hdmem hconj
  obtain ⟨hc0, hsc0, _⟩ := hconj
  have hok2 : (commitIdx dc zd.domains.length zd.domains zd.nsec3_domains).1 = 0 := hok
  have hmem2 : d ∈ (commitIdx dc zd.domains.length zd.domains zd.nsec3_domains).2.1 :=
    hdmem
  obtain ⟨hcntR, hclR, hprocR⟩ :=
    commitIdx_gc dc hdc zd.domains.length zd.domains zd.nsec3_domains
      (Nat.le_refl _) hs hpar hcnt hcl
      (processedOk_of_length _ _ (Nat.le_refl _)) hok2
  rw [List.mem_iff_getElem?] at hmem2
  obtain ⟨i, hi⟩ := hmem2
  obtain ⟨nxt, hn1, hn2⟩ := hprocR i (Nat.zero_le i) d hi hc0
  rw [isSubdomainOf_iff] at hn2
  obtain ⟨hpre, hne⟩ := hn2
  have hdN : d.dname ∈
      (commitIdx dc zd.domains.length zd.domains zd.nsec3_domains).2.1.map
        Domain.dname :=
    List.mem_map_of_mem _ (mem_of_getElem? hi)
  have hnN : nxt.dname ∈
      (commitIdx dc zd.domains.length zd.domains zd.nsec3_domains).2.1.map
        Domain.dname :=
    List.mem_map_of_mem _ (mem_of_getElem? hn1)
  have hchild := hclR d.dname hdN nxt.dname hnN hpre hne
  have hlen_lt : d.dname.length < nxt.dname.length := by
    rcases Nat.lt_or_ge d.dname.length nxt.dname.length with h | h
    · exact h
    · exact absurd (List.IsPrefix.eq_of_length hpre
        (Nat.le_antisymm hpre.length_le h)) hne
  have hdtake : d.dname = nxt.dname.take d.dname.length :=
    List.prefix_iff_eq_take.mp hpre
  have hclen : (nxt.dname.take (d.dname.length + 1)).length = d.dname.length + 1 := by
    rw [List.length_take]
    omega
  have hcdrop : (nxt.dname.take (d.dname.length + 1)).dropLast = d.dname := by
    rw [List.dropLast_eq_take, hclen, Nat.add_sub_cancel, List.take_take]
    have hmin : min d.dname.length (d.dname.length + 1) = d.dname.length := by omega
    rw [hmin, ← hdtake]
  have hcc : 0 < childCountN
      ((commitIdx dc zd.domains.length zd.domains zd.nsec3_domains).2.1.map
        Domain.dname) d.dname := by
    refine List.countP_pos_iff.mpr ⟨nxt.dname.take (d.dname.length + 1), hchild, ?_⟩
    rw [Bool.and_eq_true, beq_iff_eq, beq_iff_eq]
    exact ⟨hcdrop, hclen⟩
  have hle := hcntR d (mem_of_getElem? hi)
  omega

/-- The apex for the C7 witness: one SOA RRset that survives the commit;
one registered subdomain. -/
def domApexC7 : Domain :=
  { dname := [1],
    rrsets := [{ rrtype := 6, ttl := 3600, committed := [0], pending_add := [], pending_del := [] }],
    dstatus := .APEX, parent := none, subdomain_count := 1, subdomain_auth := 1,
    denial := none, nsec_rrset := none, nsec3 := none,
    nsec_bitmap_changed := false, nsec_nxt_changed := false, internal_serial := 0 }

/-- A child for the C7 witness whose only RRset is completely withdrawn:
the commit empties it and the leaf collection must drop it. -/
def domChildC7 : Domain :=
  { dname := [1, 2],
    rrsets := [{ rrtype := 1, ttl := 3600, committed := [1], pending_add := [], pending_del := [1] }],
    dstatus := .AUTH, parent := some [1], subdomain_count := 0, subdomain_auth := 0,
    denial := none, nsec_rrset := none, nsec3 := none,
    nsec_bitmap_changed := false, nsec_nxt_changed := false, internal_serial := 0 }

/-- Zone data for the C7 witness. -/
def zdC7W : ZoneData :=
  { zonedata_create with domains := [domApexC7, domChildC7] }

/-- Witness for `commit_leaf_gc_spec`: committing the two-domain zone
deletes the emptied child, and the invariant holds for the result. -/
theorem commit_leaf_gc_spec_witness :
    (zonedata_commit domain_commit zdC7W).1 = 0 ∧
    ∀ d ∈ (zonedata_commit domain_commit zdC7W).2.domains,
      ¬(domain_count_rrset d = 0 ∧ d.subdomain_count = 0 ∧
        d.dstatus.isEnt = false) :=
  ⟨by decide,
    commit_leaf_gc_spec domain_commit domain_commit_preserves zdC7W
      (by unfold SortedDom; decide) (by unfold ParentOk; decide)
      (by unfold CntOk childCountN; decide) (by unfold ClosedN; decide)
      (by decide)⟩

/-! ## Update with pending changes (zonedata_update) -/

/-- `ldns_rbtree_next` resolved by key: the least name in the tree
strictly greater than `n` in canonical order. -/
def nextDomGt (tree : List Domain) (n : Dname) : Option Domain :=
  (tree.filter (fun x => dnameLt n x.dname)).head?

/-- The parent climb of `zonedata_update` (zonedata.c:1645-1654): while
the referenced parent exists and has no RRsets, step up and delete the
domain when it has no subdomains either.  The parent pointer is resolved
by key in the current tree; the fuel bounds the chain (under sane parent
pointers a chain is shorter than the name). -/
def updClimb : Nat → Option Dname → List Domain → Option (List Domain) →
    List Domain × Option (List Domain)
  | 0, _, tree, n3 => (tree, n3)
  | _ + 1, none, tree, n3 => (tree, n3)
  | fuel + 1, some q, tree, n3 =>
    match tree.find? (fun x => x.dname == q) with
    | none => (tree, n3)
    | some pd =>
      if domain_count_rrset pd == 0 then
        let r := if pd.subdomain_count == 0 then zonedata_del_domain tree n3 pd
                 else (true, tree, n3)
        updClimb fuel pd.parent r.2.1 r.2.2
      else (tree, n3)

/-- The forward loop of `zonedata_update` (zonedata.c:1610-1656).  The
iterator is the key of the current node; the per-domain commit `dc`
(`domain_commit`, domain.c — not among the sources) is stored in place.
A failure with code 1 (rr compare function failed) returns 1 with the
zone partially updated; any other failure rolls the domains back and
returns 1.  On success the empty-leaf collection runs — deletion of the
domain when it has neither RRsets nor subdomains and is no empty
non-terminal, then the parent climb — and the loop moves to the next
key, captured before the deletions. -/
def updGo (dc : Domain → Nat × Domain) :
    Nat → Option Dname → List Domain → Option (List Domain) →
    Nat × List Domain × Option (List Domain)
  | _, none, tree, n3 => (0, tree, n3)
  | 0, some _, tree, n3 => (0, tree, n3)
  | fuel + 1, some cn, tree, n3 =>
    match tree.find? (fun x => x.dname == cn) with
    | none => (0, tree, n3)
    | some d =>
      let ed := dc d
      let tree1 := updDomain cn (fun _ => ed.2) tree
      if ed.1 ≠ 0 then
        if ed.1 == 1 then (1, tree1, n3)
        else (1, tree1.map domain_rollback, n3)
      else
        let nxtName := (nextDomGt tree1 cn).map Domain.dname
        if domain_count_rrset ed.2 == 0 && ! ed.2.dstatus.isEnt then
          let r1 := if ed.2.subdomain_count == 0 then zonedata_del_domain tree1 n3 ed.2
                    else (true, tree1, n3)
          let r2 := updClimb ed.2.dname.length ed.2.parent r1.2.1 r1.2.2
          updGo dc fuel nxtName r2.1 r2.2
        else updGo dc fuel nxtName tree1 n3

/-- `zonedata_update` (zonedata.c:1588-1658): advance the serial — on a
failure, or when the internal serial stays 0, roll back and return 1 —
then commit every domain in forward canonical order with the empty-leaf
collection of the loop above. -/
def zonedata_update (dc : Domain → Nat × Domain) (zd : ZoneData) (sc : Signconf)
    (now date : Nat) : Nat × ZoneData :=
  let s := zonedata_update_serial zd sc now date
  if s.1 != 0 || s.2.internal_serial == 0 then
    (1, zonedata_rollback s.2)
  else
    let r := updGo dc s.2.domains.length ((s.2.domains.head?).map Domain.dname)
      s.2.domains s.2.nsec3_domains
    (r.1, { s.2 with domains := r.2.1, nsec3_domains := r.2.2 })

theorem decParent_mem_dr (dom : Domain) (l : List Domain) (x : Domain)
    (hx : x ∈ decParent dom l) :
    ∃ y ∈ l, y.dname = x.dname ∧ y.rrsets = x.rrsets := by
  unfold decParent at hx
  cases hp : dom.parent with
  | none =>
    rw [hp] at hx
    exact ⟨x, hx, rfl, rfl⟩
  | some pn =>
    rw [hp] at hx
    rcases mem_updDomain_cases pn (decFn dom) l x hx with h | ⟨y, hy, _, hxy⟩
    · exact ⟨x, h, rfl, rfl⟩
    · subst hxy
      exact ⟨y, hy, rfl, rfl⟩

theorem zonedata_del_domain_mem_dr (tree : List Domain) (n3 : Option (List Domain))
    (dom : Domain) (x : Domain)
    (hx : x ∈ (zonedata_del_domain tree n3 dom).2.1) :
    ∃ y ∈ tree, y.dname = x.dname ∧ y.rrsets = x.rrsets := by
  have hx2 : x ∈ (delDomainFixup tree dom).2 := hx
  unfold delDomainFixup at hx2
  cases hf : findIdxD (fun z => z.dname == dom.dname) tree with
  | none =>
    rw [hf] at hx2
    exact ⟨x, hx2, rfl, rfl⟩
  | some i =>
    rw [hf] at hx2
    obtain ⟨y, hy, e1, e2⟩ := decParent_mem_dr dom _ x hx2
    have hy2 : y ∈ modIdx markNxt (if i = 0 then tree.length - 1 else i - 1) tree :=
      List.mem_of_mem_eraseIdx hy
    rcases mem_modIdx_cases markNxt _ tree y hy2 with h | ⟨z, hz, hyz⟩
    · exact ⟨y, h, e1, e2⟩
    · subst hyz
      exact ⟨z, hz, e1, e2⟩

theorem updClimb_mem_dr :
    ∀ (fuel : Nat) (pn : Option Dname) (tree : List Domain)
      (n3 : Option (List Domain)) (x : Domain),
      x ∈ (updClimb fuel pn tree n3).1 →
      ∃ y ∈ tree, y.dname = x.dname ∧ y.rrsets = x.rrsets := by
  intro fuel
  induction fuel with
  | zero =>
    intro pn tree n3 x hx
    exact ⟨x, hx, rfl, rfl⟩
  | succ fuel ih =>
    intro pn tree n3 x hx
    cases pn with
    | none => exact ⟨x, hx, rfl, rfl⟩
    | some q =>
      cases hfind : tree.find? (fun z => z.dname == q) with
      | none =>
        simp only [updClimb, hfind] at hx
        exact ⟨x, hx, rfl, rfl⟩
      | some pd =>
        simp only [updClimb, hfind] at hx
        by_cases hcnt : (domain_count_rrset pd == 0) = true
        · rw [if_pos hcnt] at hx
          by_cases hsub : (pd.subdomain_count == 0) = true
          · rw [if_pos hsub] at hx
            obtain ⟨y, hy, e1, e2⟩ := ih pd.parent _ _ x hx
            obtain ⟨z, hz, f1, f2⟩ := zonedata_del_domain_mem_dr tree n3 pd y hy
            exact ⟨z, hz, by rw [f1, e1], by rw [f2, e2]⟩
          · rw [if_neg hsub] at hx
            exact ih pd.parent tree n3 x hx
        · rw [if_neg hcnt] at hx
          exact ⟨x, hx, rfl, rfl⟩

theorem nextDomGt_lt (tree : List Domain) (n : Dname) (w : Domain)
    (h : nextDomGt tree n = some w) : dnameLt n w.dname = true := by
  unfold nextDomGt at h
  cases hf : tree.filter (fun x => dnameLt n x.dname) with
  | nil =>
    rw [hf] at h
    exact absurd h (by simp)
  | cons a t =>
    rw [hf] at h
    have hw : w = a := by
      simp only [List.head?_cons, Option.some.injEq] at h
      exact h.symm
    subst hw
    have : w ∈ tree.filter (fun x => dnameLt n x.dname) := by
      rw [hf]
      simp
    exact (List.mem_filter.mp this).2

theorem updGo_none (dc : Domain → Nat × Domain) (fuel : Nat) (tree : List Domain)
    (n3 : Option (List Domain)) : updGo dc fuel none tree n3 = (0, tree, n3) := by
  cases fuel <;> rfl

theorem updGo_after (dc : Domain → Nat × Domain) (fuel : Nat)
    (nxtName : Option Dname) (cn : Dname) (tree T2 : List Domain)
    (n3b : Option (List Domain))
    (hnxt : ∀ c1, nxtName = some c1 → dnameLt cn c1 = true)
    (htr : ∀ y ∈ T2, dnameLt cn y.dname = true →
      ∃ z ∈ tree, z.dname = y.dname ∧ z.rrsets = y.rrsets)
    (hind :
      (updGo dc fuel nxtName T2 n3b).1 = 0 ∨
      (∃ e, (dc e).1 = 1 ∧ (updGo dc fuel nxtName T2 n3b).1 = 1 ∧
        (∀ c0, nxtName = some c0 → c0 = e.dname ∨ dnameLt c0 e.dname = true) ∧
        (∀ x ∈ (updGo dc fuel nxtName T2 n3b).2.1,
          dnameLt e.dname x.dname = true →
          ∃ y ∈ T2, y.dname = x.dname ∧ y.rrsets = x.rrsets)) ∨
      (∃ e, ∃ ds : List Domain, (dc e).1 ≠ 0 ∧ (dc e).1 ≠ 1 ∧
        (updGo dc fuel nxtName T2 n3b).1 = 1 ∧
        (updGo dc fuel nxtName T2 n3b).2.1 = ds.map domain_rollback)) :
    (updGo dc fuel nxtName T2 n3b).1 = 0 ∨
    (∃ e, (dc e).1 = 1 ∧ (updGo dc fuel nxtName T2 n3b).1 = 1 ∧
      (∀ c0, some cn = some c0 → c0 = e.dname ∨ dnameLt c0 e.dname = true) ∧
      (∀ x ∈ (updGo dc fuel nxtName T2 n3b).2.1,
        dnameLt e.dname x.dname = true →
        ∃ y ∈ tree, y.dname = x.dname ∧ y.rrsets = x.rrsets)) ∨
    (∃ e, ∃ ds : List Domain, (dc e).1 ≠ 0 ∧ (dc e).1 ≠ 1 ∧
      (updGo dc fuel nxtName T2 n3b).1 = 1 ∧
      (updGo dc fuel nxtName T2 n3b).2.1 = ds.map domain_rollback) := by
  rcases hind with h | ⟨e, h1, h2, hcb, hframe⟩ | h
  · exact Or.inl h
  · cases hnn : nxtName with
    | none =>
      rw [hnn, updGo_none] at h2
      exact absurd h2 (by simp)
    | some c1 =>
      rw [hnn] at h2 hcb hframe
      have hlt1 : dnameLt cn c1 = true := hnxt c1 hnn
      have hlt2 : dnameLt cn e.dname = true := by
        rcases hcb c1 rfl with he | hl
        · rw [← he]
          exact hlt1
        · exact dnameLt_trans hlt1 hl
      refine Or.inr (Or.inl ⟨e, h1, h2, ?_, ?_⟩)
      · intro c0 hc0
        cases Option.some.inj hc0
        exact Or.inr hlt2
      intro x hx hltx
      obtain ⟨y, hy, e1, e2⟩ := hframe x hx hltx
      have hlty : dnameLt cn y.dname = true := by
        rw [e1]
        exact dnameLt_trans hlt2 hltx
      obtain ⟨z, hz, f1, f2⟩ := htr y hy hlty
      exact ⟨z, hz, by rw [f1, e1], by rw [f2, e2]⟩
  · exact Or.inr (Or.inr h)

theorem updGo_spec (dc : Domain → Nat × Domain) (hdc : dcPreserves dc) :
    ∀ (fuel : Nat) (cn : Option Dname) (tree : List Domain)
      (n3 : Option (List Domain)),
    (updGo dc fuel cn tree n3).1 = 0 ∨
    (∃ e, (dc e).1 = 1 ∧ (updGo dc fuel cn tree n3).1 = 1 ∧
      (∀ c0, cn = some c0 → c0 = e.dname ∨ dnameLt c0 e.dname = true) ∧
      (∀ x ∈ (updGo dc fuel cn tree n3).2.1, dnameLt e.dname x.dname = true →
        ∃ y ∈ tree, y.dname = x.dname ∧ y.rrsets = x.rrsets)) ∨
    (∃ e, ∃ ds : List Domain, (dc e).1 ≠ 0 ∧ (dc e).1 ≠ 1 ∧
      (updGo dc fuel cn tree n3).1 = 1 ∧
      (updGo dc fuel cn tree n3).2.1 = ds.map domain_rollback) := by
  intro fuel
  induction fuel with
  | zero =>
    intro cn tree n3
    left
    cases cn <;> rfl
  | succ fuel ih =>
    intro cn tree n3
    cases cn with
    | none =>
      left
      rfl
    | some cn =>
      cases hfind : tree.find? (fun x => x.dname == cn) with
      | none =>
        left
        simp only [updGo, hfind]
      | some d =>
        have hps := List.find?_some hfind
        have hdn : d.dname = cn := beq_iff_eq.mp hps
        obtain ⟨hedn, _, _⟩ := hdc d
        by_cases hst : (dc d).1 = 0
        · have hup : ∀ y ∈ updDomain cn (fun _ => (dc d).2) tree,
              dnameLt cn y.dname = true →
              ∃ z ∈ tree, z.dname = y.dname ∧ z.rrsets = y.rrsets := by
            intro y hy hlty
            rcases mem_updDomain_cases cn _ tree y hy with h | ⟨y0, _, _, hy0e⟩
            · exact ⟨y, h, rfl, rfl⟩
            · exfalso
              rw [hy0e, hedn, hdn, dnameLt_irrefl] at hlty
              exact absurd hlty (by simp)
          have hnxt : ∀ c1,
              (nextDomGt (updDomain cn (fun _ => (dc d).2) tree) cn).map
                Domain.dname = some c1 →
              dnameLt cn c1 = true := by
            intro c1 hc1
            cases hng : nextDomGt (updDomain cn (fun _ => (dc d).2) tree) cn with
            | none =>
              rw [hng] at hc1
              exact absurd hc1 (by simp)
            | some w =>
              rw [hng] at hc1
              have hw : w.dname = c1 := by simpa using hc1
              rw [← hw]
              exact nextDomGt_lt _ cn w hng
          cases hgc : (domain_count_rrset (dc d).2 == 0 &&
              ! (dc d).2.dstatus.isEnt) with
          | false =>
            simp only [updGo, hfind]
            rw [if_neg (by simp [hst]), if_neg (by rw [hgc]; simp)]
            exact updGo_after dc fuel _ cn tree _ _ hnxt hup (ih _ _ _)
          | true =>
            have htr : ∀ y ∈ (updClimb (dc d).2.dname.length (dc d).2.parent
                (if ((dc d).2.subdomain_count == 0) = true then
                  zonedata_del_domain (updDomain cn (fun _ => (dc d).2) tree) n3 (dc d).2
                 else (true, updDomain cn (fun _ => (dc d).2) tree, n3)).2.1
                (if ((dc d).2.subdomain_count == 0) = true then
                  zonedata_del_domain (updDomain cn (fun _ => (dc d).2) tree) n3 (dc d).2
                 else (true, updDomain cn (fun _ => (dc d).2) tree, n3)).2.2).1,
                dnameLt cn y.dname = true →
                ∃ z ∈ tree, z.dname = y.dname ∧ z.rrsets = y.rrsets := by
              intro y hy hlty
              obtain ⟨y1, hy1, e1, e2⟩ := updClimb_mem_dr _ _ _ _ y hy
              by_cases hsub : ((dc d).2.subdomain_count == 0) = true
              · rw [if_pos hsub] at hy1
                obtain ⟨y2, hy2, f1, f2⟩ := zonedata_del_domain_mem_dr _ _ _ y1 hy1
                have hy2g : dnameLt cn y2.dname = true := by
                  rw [f1, e1]
                  exact hlty
                obtain ⟨z, hz, g1, g2⟩ := hup y2 hy2 hy2g
                exact ⟨z, hz, by rw [g1, f1, e1], by rw [g2, f2, e2]⟩
              · rw [if_neg hsub] at hy1
                have hy1b : y1 ∈ updDomain cn (fun _ => (dc d).2) tree := hy1
                have hy1g : dnameLt cn y1.dname = true := by
                  rw [e1]
                  exact hlty
                obtain ⟨z, hz, g1, g2⟩ := hup y1 hy1b hy1g
                exact ⟨z, hz, by rw [g1, e1], by rw [g2, e2]⟩
            simp only [updGo, hfind]
            rw [if_neg (by simp [hst]), if_pos hgc]
            exact updGo_after dc fuel _ cn tree _ _ hnxt htr (ih _ _ _)
        · cases h1 : ((dc d).1 == 1) with
          | true =>
            have heq : updGo dc (fuel + 1) (some cn) tree n3 =
                (1, updDomain cn (fun _ => (dc d).2) tree, n3) := by
              simp only [updGo, hfind]
              rw [if_pos hst, if_pos h1]
            rw [heq]
            refine Or.inr (Or.inl ⟨d, beq_iff_eq.mp h1, rfl, ?_, ?_⟩)
            · intro c0 hc0
              cases Option.some.inj hc0
              exact Or.inl hdn.symm
            · intro x hx hltx
              rcases mem_updDomain_cases cn _ tree x hx with h | ⟨x0, _, _, hx0e⟩
              · exact ⟨x, h, rfl, rfl⟩
              · exfalso
                rw [hx0e, hedn, hdn, dnameLt_irrefl] at hltx
                exact absurd hltx (by simp)
          | false =>
            have heq : updGo dc (fuel + 1) (some cn) tree n3 =
                (1, (updDomain cn (fun _ => (dc d).2) tree).map domain_rollback, n3) := by
              simp only [updGo, hfind]
              rw [if_pos hst, if_neg (by rw [h1]; simp)]
            rw [heq]
            exact Or.inr (Or.inr ⟨d, updDomain cn (fun _ => (dc d).2) tree, hst,
              by intro he; rw [he] at h1; simp at h1, rfl, rfl⟩)

/-- C8: the error paths of `zonedata_update` (zonedata.c:1588-1658).
When advancing the serial fails (or leaves the internal serial 0) the
function rolls the zone data back and returns 1.  When the serial step
succeeds and the forward commit loop fails: with the comparator error
code 1 it returns 1 without rolling back — every domain beyond the
failing one keeps its RRsets, pending changes included — and with any
other nonzero code it returns 1 with the domain tree rolled back.  The
per-domain commit `dc` (`domain_commit`, domain.c — not among the
sources) is a parameter that preserves name, parent and counter. -/
theorem update_error_paths_spec (dc : Domain → Nat × Domain) (hdc : dcPreserves dc)
    (zd : ZoneData) (sc : Signconf) (now date : Nat) :
    (((zonedata_update_serial zd sc now date).1 ≠ 0 ∨
      (zonedata_update_serial zd sc now date).2.internal_serial = 0) →
      zonedata_update dc zd sc now date =
        (1, zonedata_rollback (zonedata_update_serial zd sc now date).2)) ∧
    (((zonedata_update_serial zd sc now date).1 = 0 ∧
      (zonedata_update_serial zd sc now date).2.internal_serial ≠ 0) →
      (zonedata_update dc zd sc now date).1 = 0 ∨
      (∃ e, (dc e).1 = 1 ∧ (zonedata_update dc zd sc now date).1 = 1 ∧
        (∀ x ∈ (zonedata_update dc zd sc now date).2.domains,
          dnameLt e.dname x.dname = true →
          ∃ y ∈ (zonedata_update_serial zd sc now date).2.domains,
            y.dname = x.dname ∧ y.rrsets = x.rrsets)) ∨
      (∃ e, ∃ ds : List Domain, (dc e).1 ≠ 0 ∧ (dc e).1 ≠ 1 ∧
        (zonedata_update dc zd sc now date).1 = 1 ∧
        (zonedata_update dc zd sc now date).2.domains = ds.map domain_rollback)) := by
  constructor
  · intro hfail
    have hcond : ((zonedata_update_serial zd sc now date).1 != 0 ||
        (zonedata_update_serial zd sc now date).2.internal_serial == 0) = true := by
      rw [Bool.or_eq_true]
      rcases hfail with h | h
      · exact Or.inl (bne_iff_ne.mpr h)
      · exact Or.inr (beq_iff_eq.mpr h)
    simp only [zonedata_update]
    rw [if_pos hcond]
  · intro hpass
    obtain ⟨hok, hser⟩ := hpass
    have hcond : ((zonedata_update_serial zd sc now date).1 != 0 ||
        (zonedata_update_serial zd sc now date).2.internal_serial == 0) = false := by
      rw [Bool.or_eq_false_iff]
      constructor
      · rw [bne_eq_false_iff_eq]
        exact hok
      · rw [beq_eq_false_iff_ne]
        exact hser
    have heq : zonedata_update dc zd sc now date =
        ((updGo dc (zonedata_update_serial zd sc now date).2.domains.length
            (((zonedata_update_serial zd sc now date).2.domains.head?).map Domain.dname)
            (zonedata_update_serial zd sc now date).2.domains
            (zonedata_update_serial zd sc now date).2.nsec3_domains).1,
          { (zonedata_update_serial zd sc now date).2 with
            domains := (updGo dc (zonedata_update_serial zd sc now date).2.domains.length
              (((zonedata_update_serial zd sc now date).2.domains.head?).map Domain.dname)
              (zonedata_update_serial zd sc now date).2.domains
              (zonedata_update_serial zd sc now date).2.nsec3_domains).2.1,
            nsec3_domains := (updGo dc (zonedata_update_serial zd sc now date).2.domains.length
              (((zonedata_update_serial zd sc now date).2.domains.head?).map Domain.dname)
              (zonedata_update_serial zd sc now date).2.domains
              (zonedata_update_serial zd sc now date).2.nsec3_domains).2.2 }) := by
      simp only [zonedata_update]
      rw [if_neg (by rw [hcond]; simp)]
    rcases updGo_spec dc hdc
        (zonedata_update_serial zd sc now date).2.domains.length
        (((zonedata_update_serial zd sc now date).2.domains.head?).map Domain.dname)
        (zonedata_update_serial zd sc now date).2.domains
        (zonedata_update_serial zd sc now date).2.nsec3_domains
      with h | ⟨e, h1, h2, _, hframe⟩ | ⟨e, ds, h1, h2, h3, h4⟩
    · left
      rw [heq]
      exact h
    · right
      left
      refine ⟨e, h1, by rw [heq]; exact h2, ?_⟩
      rw [heq]
      intro x hx hlt
      exact hframe x hx hlt
    · right
      right
      refine ⟨e, ds, h1, h2, by rw [heq]; exact h3, ?_⟩
      rw [heq]
      exact h4

/-- A per-domain commit failing with the comparator error code 1
(`util_soa_compare` problems surface as 1 from `domain_commit`),
leaving the domain untouched. -/
def dcFailCmp (d : Domain) : Nat × Domain := (1, d)

theorem dcFailCmp_preserves : dcPreserves dcFailCmp :=
  fun _ => ⟨rfl, rfl, rfl⟩

/-- Zone data for the C8 witness: a serial state the `keep` policy
accepts and one domain for the commit loop to visit. -/
def zdC8W : ZoneData :=
  { zonedata_create with
      initialized := true
      internal_serial := 5
      inbound_serial := 10
      domains := [domApexC7] }

/-- Signer configuration with the `keep` serial policy. -/
def scKeepC8 : Signconf := { soa_serial := some "keep" }

/-- Witness for `update_error_paths_spec`: a failing serial step rolls
back and returns 1, and a comparator-failing per-domain commit on a
one-domain zone takes the no-rollback error path. -/
theorem update_error_paths_spec_witness :
    (zonedata_update domain_commit zonedata_create { soa_serial := none } 0 0 =
      (1, zonedata_rollback
        (zonedata_update_serial zonedata_create { soa_serial := none } 0 0).2)) ∧
    ((zonedata_update dcFailCmp zdC8W scKeepC8 0 0).1 = 0 ∨
     (∃ e, (dcFailCmp e).1 = 1 ∧
       (zonedata_update dcFailCmp zdC8W scKeepC8 0 0).1 = 1 ∧
       (∀ x ∈ (zonedata_update dcFailCmp zdC8W scKeepC8 0 0).2.domains,
         dnameLt e.dname x.dname = true →
         ∃ y ∈ (zonedata_update_serial zdC8W scKeepC8 0 0).2.domains,
           y.dname = x.dname ∧ y.rrsets = x.rrsets)) ∨
     (∃ e, ∃ ds : List Domain, (dcFailCmp e).1 ≠ 0 ∧ (dcFailCmp e).1 ≠ 1 ∧
       (zonedata_update dcFailCmp zdC8W scKeepC8 0 0).1 = 1 ∧
       (zonedata_update dcFailCmp zdC8W scKeepC8 0 0).2.domains =
         ds.map domain_rollback)) :=
  ⟨(update_error_paths_spec domain_commit domain_commit_preserves zonedata_create
      { soa_serial := none } 0 0).1 (by decide),
   (update_error_paths_spec dcFailCmp dcFailCmp_preserves zdC8W scKeepC8 0 0).2
      (by decide)⟩
